import Mathlib

/-!
# Verification of `sitemap-splitter` (`splitter.go`)

A shallow embedding of the Go package `sitemapsplitter` together with models of
the pieces of the Go standard library it relies on (`path/filepath`, `net/url`,
`encoding/xml`).  File writes are modelled as an ordered effect trace; the
current wall-clock time (`time.Now().Format(time.RFC3339)`) is passed in as an
already-formatted string parameter `now`; the outcome of each `os.WriteFile`
call is given by an oracle `writeOk : String → Bool` keyed on the target path.
-/

namespace SitemapSplitterModel

/-! ## Data model (`splitter.go` lines 13-48) -/

/-- `URL` represents a single URL entry in the sitemap (struct `URL`).
The `XMLName` marker field carries no data and is dropped. -/
structure URL where
  Loc : String
  LastMod : String
  ChangeFreq : String
  Priority : String
deriving DecidableEq, Repr

/-- `URLSet` represents the root element of a sitemap (struct `URLSet`). -/
structure URLSet where
  XMLNS : String
  XHTML : String
  URLs : List URL
deriving DecidableEq, Repr

/-- `Sitemap` represents a single sitemap entry in the index (struct `Sitemap`). -/
structure Sitemap where
  Loc : String
  LastMod : String
deriving DecidableEq, Repr

/-- `SitemapIndex` represents the root element of a sitemap index
(struct `SitemapIndex`). -/
structure SitemapIndex where
  XMLNS : String
  Sitemaps : List Sitemap
deriving DecidableEq, Repr

/-- `SitemapSplitter` holds the configuration (struct `SitemapSplitter`):
`path` is the sitemap file path, `limit` the maximum number of URLs per file.
Go `int` is modelled as `Int`. -/
structure SitemapSplitter where
  path : String
  limit : Int
deriving DecidableEq, Repr

/-- `NewSitemapSplitter` (lines 51-63): validates the arguments and returns the
configuration value; no filesystem access happens here. -/
def NewSitemapSplitter (path : String) (limit : Int) : Except String SitemapSplitter :=
  if path = "" then
    .error "sitemap path is required"
  else if limit ≤ 0 then
    .error "limit must be greater than 0"
  else
    .ok { path := path, limit := limit }

/-! ## Model of `path/filepath` (Unix rules, `Separator = '/'`) -/

/-- Scans the reversed character list of a path; `acc` holds the characters
that follow the current position in original order.  Mirrors the loop in
`filepath.Ext`: walk backwards, stop at a separator, return from the last dot. -/
def extAux : List Char → List Char → List Char
  | [], _ => []
  | c :: cs, acc =>
    if c = '/' then []
    else if c = '.' then c :: acc
    else extAux cs (c :: acc)

/-- `filepath.Ext`: the suffix beginning at the final dot in the final
path element; empty if there is no dot. -/
def filepathExt (p : String) : String :=
  (extAux p.data.reverse []).asString

/-- `filepath.Base`: the last element of the path, with trailing slashes
removed; `"."` for the empty path, `"/"` for a path of only slashes. -/
def filepathBase (p : String) : String :=
  if p = "" then "."
  else
    let l := p.data.reverse.dropWhile (fun c => c = '/')
    if l = [] then "/"
    else ((l.takeWhile (fun c => c ≠ '/')).reverse).asString

/-- One step of `filepath.Clean` viewed on path segments: `out` is the stack of
kept segments (in reverse order). -/
def cleanSeg (rooted : Bool) (out : List String) (seg : String) : List String :=
  if seg = "" ∨ seg = "." then out
  else if seg = ".." then
    match out with
    | [] => if rooted then [] else [".."]
    | s :: rest => if s = ".." then ".." :: out else rest
  else seg :: out

/-- `filepath.Clean` (Unix): resolves `.` and `..` segments and collapses
repeated separators; returns `"."` for an empty result, keeps a leading
slash for rooted paths. -/
def filepathClean (p : String) : String :=
  if p = "" then "."
  else
    let rooted := decide (p.data.head? = some '/')
    let segs := (p.data.splitOn '/').map List.asString
    let out := (segs.foldl (cleanSeg rooted) []).reverse
    if rooted then
      "/" ++ String.intercalate "/" out
    else if out = [] then "."
    else String.intercalate "/" out

/-- `filepath.Dir`: the path up to (not including) the final element,
cleaned. -/
def filepathDir (p : String) : String :=
  let keep := p.data.reverse.dropWhile (fun c => c ≠ '/')
  filepathClean keep.reverse.asString

/-- `filepath.Join dir name` for two non-empty components:
`Clean(dir + "/" + name)`. -/
def filepathJoin (dir name : String) : String :=
  filepathClean (dir ++ "/" ++ name)

/-! ## The partition loop (`Split`, lines 94-104)

`splitChunksAux urls limit i` is the sequence of slices produced by the Go
loop `for i := 0; i*s.limit < len(urlset.URLs); i++` starting at iteration
`i`: `start := i*limit`, `end := min((i+1)*limit, len)`, slice
`urls[start:end]`, with the `if len(chunk) == 0 break` guard. -/
def splitChunksAux (urls : List URL) (limit : Nat) (i : Nat) : List (List URL) :=
  if h : i * limit < urls.length then
    if hc : (urls.drop (i * limit)).take (min ((i + 1) * limit) urls.length - i * limit) = []
    then []
    else (urls.drop (i * limit)).take (min ((i + 1) * limit) urls.length - i * limit)
         :: splitChunksAux urls limit (i + 1)
  else []
  termination_by urls.length - i * limit
  decreasing_by
    have h1 : 0 < ((urls.drop (i * limit)).take
        (min ((i + 1) * limit) urls.length - i * limit)).length :=
      List.length_pos.mpr hc
    rw [List.length_take, List.length_drop] at h1
    have h2 : (i + 1) * limit = i * limit + limit := Nat.succ_mul i limit
    omega

/-- The full chunk sequence produced by the partition loop of `Split`. -/
def splitChunks (urls : List URL) (limit : Nat) : List (List URL) :=
  splitChunksAux urls limit 0

/-- Simple structural chunking: repeatedly take the first `limit` elements.
Used as a proof-friendly description of `splitChunks`. -/
def chunkExact (limit : Nat) : List URL → List (List URL)
  | [] => []
  | x :: xs =>
    if limit = 0 then []
    else ((x :: xs).take limit) :: chunkExact limit ((x :: xs).drop limit)
  termination_by l => l.length
  decreasing_by
    simp only [List.length_drop, List.length_cons]
    omega

theorem chunkExact_cons (limit : Nat) (hl : 0 < limit) (x : URL) (xs : List URL) :
    chunkExact limit (x :: xs)
      = (x :: xs).take limit :: chunkExact limit ((x :: xs).drop limit) := by
  rw [chunkExact]
  simp [Nat.pos_iff_ne_zero.mp hl]

theorem splitChunksAux_eq_chunkExact (urls : List URL) (limit : Nat) (hl : 0 < limit)
    (i : Nat) : splitChunksAux urls limit i = chunkExact limit (urls.drop (i * limit)) := by
  generalize hn : urls.length - i * limit = n
  induction n using Nat.strong_induction_on generalizing i with
  | _ n ih =>
    rw [splitChunksAux]
    by_cases h : i * limit < urls.length
    · have hlen : (urls.drop (i * limit)).length = urls.length - i * limit :=
        List.length_drop _ _
      have hsm : (i + 1) * limit = i * limit + limit := Nat.succ_mul i limit
      have hmin : min ((i + 1) * limit) urls.length - i * limit
          = min limit (urls.length - i * limit) := by
        rcases Nat.le_total ((i + 1) * limit) urls.length with h6 | h6
        · rw [min_eq_left h6, min_eq_left (by omega)]
          omega
        · rw [min_eq_right h6, min_eq_right (by omega)]
      have htake : (urls.drop (i * limit)).take (min ((i + 1) * limit) urls.length - i * limit)
          = (urls.drop (i * limit)).take limit := by
        rw [hmin, List.take_eq_take, hlen, min_assoc, min_self]
      have hne : (urls.drop (i * limit)).take (min ((i + 1) * limit) urls.length - i * limit)
          ≠ [] := by
        rw [htake]
        intro hcon
        have hlc := congrArg List.length hcon
        rw [List.length_take, hlen, List.length_nil] at hlc
        rcases Nat.le_total limit (urls.length - i * limit) with h6 | h6
        · rw [min_eq_left h6] at hlc
          omega
        · rw [min_eq_right h6] at hlc
          omega
      rw [dif_pos h, dif_neg hne, htake]
      obtain ⟨y, ys, hys⟩ : ∃ y ys, urls.drop (i * limit) = y :: ys := by
        cases hd : urls.drop (i * limit) with
        | nil =>
          exfalso
          have := congrArg List.length hd
          rw [hlen] at this
          simp at this
          omega
        | cons y ys => exact ⟨y, ys, rfl⟩
      rw [hys, chunkExact_cons limit hl, ← hys]
      congr 1
      have hlt2 : urls.length - (i + 1) * limit < n := by
        clear hmin htake hne hys ih
        omega
      rw [ih (urls.length - (i + 1) * limit) hlt2 (i + 1) rfl]
      rw [List.drop_drop]
      congr 2
    · rw [dif_neg h]
      have hd : urls.drop (i * limit) = [] := by
        apply List.drop_eq_nil_of_le
        omega
      rw [hd, chunkExact]

theorem chunkExact_flatten (limit : Nat) (hl : 0 < limit) (l : List URL) :
    (chunkExact limit l).flatten = l := by
  generalize hn : l.length = n
  induction n using Nat.strong_induction_on generalizing l with
  | _ n ih =>
    subst hn
    cases l with
    | nil => rw [chunkExact]; rfl
    | cons x xs =>
      rw [chunkExact_cons limit hl]
      rw [List.flatten_cons]
      rw [ih (((x :: xs).drop limit).length)
        (by simp only [List.length_drop, List.length_cons]; omega) _ rfl]
      exact List.take_append_drop _ _

theorem chunkExact_length (limit : Nat) (hl : 0 < limit) (l : List URL) :
    (chunkExact limit l).length = (l.length + limit - 1) / limit := by
  generalize hn : l.length = n
  induction n using Nat.strong_induction_on generalizing l with
  | _ n ih =>
    subst hn
    cases l with
    | nil =>
      rw [chunkExact]
      have hz : (([] : List URL).length + limit - 1) / limit = 0 :=
        Nat.div_eq_of_lt (by simp only [List.length_nil]; omega)
      rw [hz]
      rfl
    | cons x xs =>
      rw [chunkExact_cons limit hl, List.length_cons,
        ih (((x :: xs).drop limit).length)
          (by simp only [List.length_drop, List.length_cons]; omega) _ rfl,
        List.length_drop]
      simp only [List.length_cons]
      rcases le_or_lt (xs.length + 1) limit with hle | hlt
      · have e1 : xs.length + 1 - limit = 0 := by omega
        rw [e1]
        have e2 : (0 + limit - 1) / limit = 0 := Nat.div_eq_of_lt (by omega)
        have e3 : (xs.length + 1 + limit - 1) / limit = 1 :=
          Nat.div_eq_of_lt_le (by omega) (by
            have hs : Nat.succ 1 * limit = limit + limit := by rw [Nat.succ_mul]; omega
            omega)
        rw [e2, e3]
      · have e1 : xs.length + 1 - limit + limit - 1 = xs.length + 1 - 1 - limit + limit := by
          omega
        have e2 : xs.length + 1 + limit - 1 = xs.length + 1 - 1 - limit + limit + limit := by
          omega
        rw [e1, e2, Nat.add_div_right _ hl, Nat.add_div_right _ hl, Nat.add_div_right _ hl]

theorem chunkExact_mem (limit : Nat) (hl : 0 < limit) (l : List URL) :
    ∀ c ∈ chunkExact limit l, c ≠ [] ∧ c.length ≤ limit := by
  generalize hn : l.length = n
  induction n using Nat.strong_induction_on generalizing l with
  | _ n ih =>
    subst hn
    cases l with
    | nil =>
      rw [chunkExact]
      intro c hc
      exact absurd hc (List.not_mem_nil c)
    | cons x xs =>
      rw [chunkExact_cons limit hl]
      intro c hc
      rcases List.mem_cons.mp hc with h | h
      · subst h
        constructor
        · simp [Nat.pos_iff_ne_zero.mp hl]
        · simp
      · exact ih (((x :: xs).drop limit).length)
          (by simp only [List.length_drop, List.length_cons]; omega) _ rfl c h

theorem chunkExact_get (limit : Nat) (hl : 0 < limit) (l : List URL) (i : Nat)
    (hi : i < (chunkExact limit l).length) :
    (chunkExact limit l).get ⟨i, hi⟩ = (l.drop (i * limit)).take limit := by
  generalize hn : l.length = n
  induction n using Nat.strong_induction_on generalizing l i with
  | _ n ih =>
    subst hn
    cases l with
    | nil => rw [chunkExact] at hi; cases hi
    | cons x xs =>
      rcases i with _ | j
      · simp only [Nat.zero_mul, List.drop_zero]
        have := chunkExact_cons limit hl x xs
        revert hi
        rw [this]
        intro hi
        rfl
      · have hcons := chunkExact_cons limit hl x xs
        have hi' : j < (chunkExact limit ((x :: xs).drop limit)).length := by
          have := hi
          rw [hcons] at this
          simpa using this
        have hstep : (chunkExact limit (x :: xs)).get ⟨j + 1, hi⟩
            = (chunkExact limit ((x :: xs).drop limit)).get ⟨j, hi'⟩ := by
          revert hi
          rw [hcons]
          intro hi
          rfl
        rw [hstep]
        rw [ih (((x :: xs).drop limit).length)
          (by simp only [List.length_drop, List.length_cons]; omega) _ j hi' rfl]
        rw [List.drop_drop]
        congr 2
        have hsm2 : (j + 1) * limit = j * limit + limit := Nat.succ_mul j limit
        omega

theorem chunkExact_length_eq_limit (limit : Nat) (hl : 0 < limit) (l : List URL) (i : Nat)
    (hi : i + 1 < (chunkExact limit l).length) :
    ((chunkExact limit l).get ⟨i, Nat.lt_of_succ_lt hi⟩).length = limit := by
  rw [chunkExact_get limit hl l i]
  rw [List.length_take, List.length_drop]
  have hlen := chunkExact_length limit hl l
  have hi2 : i + 2 ≤ (l.length + limit - 1) / limit := by
    rw [← hlen]
    omega
  have hmul : (i + 2) * limit ≤ l.length + limit - 1 :=
    (Nat.le_div_iff_mul_le hl).mp hi2
  have h1 : (i + 1) * limit = i * limit + limit := Nat.succ_mul i limit
  have h2 : (i + 2) * limit = (i + 1) * limit + limit := Nat.succ_mul (i + 1) limit
  omega

theorem splitChunks_eq_chunkExact (urls : List URL) (limit : Nat) (hl : 0 < limit) :
    splitChunks urls limit = chunkExact limit urls := by
  unfold splitChunks
  rw [splitChunksAux_eq_chunkExact urls limit hl 0]
  norm_num

/-- C1: for every non-empty URL sequence of length N and positive limit L, the
partition loop in `Split` (lines 94-104) produces exactly `ceil(N/L)` chunks;
chunk `i` is the contiguous slice of entries at positions
`[i*L, min((i+1)*L, N))`; concatenating the chunks reproduces the input; every
chunk has at most L entries and none is empty; and every chunk except possibly
the last has exactly L entries. -/
theorem split_partition_spec (urls : List URL) (limit : Nat)
    (hl : 0 < limit) (hne : urls ≠ []) :
    (splitChunks urls limit).length = (urls.length + limit - 1) / limit ∧
    (∀ i, i < (splitChunks urls limit).length →
      (splitChunks urls limit)[i]? = some ((urls.drop (i * limit)).take limit)) ∧
    (splitChunks urls limit).flatten = urls ∧
    (∀ c ∈ splitChunks urls limit, c.length ≤ limit ∧ c ≠ []) ∧
    (∀ i, i + 1 < (splitChunks urls limit).length →
      ((splitChunks urls limit)[i]?.getD []).length = limit) := by
  simp only [splitChunks_eq_chunkExact urls limit hl]
  refine ⟨chunkExact_length limit hl urls, ?_, chunkExact_flatten limit hl urls,
    fun c hc => ⟨(chunkExact_mem limit hl urls c hc).2, (chunkExact_mem limit hl urls c hc).1⟩,
    ?_⟩
  · intro i hi
    rw [List.getElem?_eq_getElem hi]
    have hg := chunkExact_get limit hl urls i hi
    rw [← hg]
    rfl
  · intro i hi
    have hi' : i < (chunkExact limit urls).length := Nat.lt_of_succ_lt hi
    rw [List.getElem?_eq_getElem hi']
    simp only [Option.getD_some]
    exact chunkExact_length_eq_limit limit hl urls i hi

/-- A concrete URL entry used to instantiate the general theorems. -/
def demoURL (n : Nat) : URL :=
  { Loc := "https://example.com/page-" ++ toString n
    LastMod := "2024-01-15T10:00:00Z"
    ChangeFreq := ""
    Priority := "" }

/-- `n` concrete URL entries. -/
def demoURLs (n : Nat) : List URL := (List.range n).map (fun k => demoURL (k + 1))

theorem split_partition_spec_witness :
    (splitChunks (demoURLs 5) 2).length = ((demoURLs 5).length + 2 - 1) / 2 ∧
    (splitChunks (demoURLs 5) 2).flatten = demoURLs 5 :=
  ⟨(split_partition_spec (demoURLs 5) 2 (by decide) (by decide)).1,
   (split_partition_spec (demoURLs 5) 2 (by decide) (by decide)).2.2.1⟩

/-! ## Model of `net/url.Parse`

The splitter only reads `Scheme` and `Host` from the parse result, but the
model follows the control flow of `net/url`'s `Parse`/`parse` so that the
success/failure behaviour is faithful: control characters are rejected, a
scheme is recognised per `getScheme`, an authority is parsed with userinfo,
host-character and port validation, and percent-escapes are validated in
path, host, userinfo and fragment components.  (IPv6 zone identifiers and
the lazily-validated raw query are simplified away; neither affects the
splitter, which never inspects `Path`, `RawQuery` or `Fragment`.) -/

/-- The double-quote character. -/
def dquote : Char := Char.ofNat 34

/-- The single-quote character. -/
def squote : Char := Char.ofNat 39

/-- Result of `url.Parse` (struct `url.URL`; the `User`, `RawPath`,
`ForceQuery` and `RawFragment` fields are omitted — unused by the splitter). -/
structure GoURL where
  Scheme : String
  Opaque : String
  Host : String
  Path : String
  RawQuery : String
  Fragment : String
deriving DecidableEq, Repr

/-- `stringContainsCTLByte`: a byte below 0x20 or equal to 0x7f. -/
def containsCTLByte (s : String) : Bool :=
  s.data.any (fun c => c.toNat < 0x20 || c.toNat == 0x7f)

/-- One hex digit? (`ishex`). -/
def isHexDig (c : Char) : Bool :=
  c.isDigit || (97 ≤ c.toNat && c.toNat ≤ 102) || (65 ≤ c.toNat && c.toNat ≤ 70)

/-- Value of a hex digit (`unhex`). -/
def unhex (c : Char) : Nat :=
  if c.isDigit then c.toNat - 48
  else if 97 ≤ c.toNat ∧ c.toNat ≤ 102 then c.toNat - 97 + 10
  else if 65 ≤ c.toNat ∧ c.toNat ≤ 70 then c.toNat - 65 + 10
  else 0

/-- Characters that may appear unescaped in a host component, beyond
alphanumerics and `-._~` (per `shouldEscape` for `encodeHost`). -/
def hostExtraAllowed : List Char :=
  ['!', '$', '&', squote, '(', ')', '*', '+', ',', ';', '=', ':', '[', ']', '<', '>', dquote]

/-- `shouldEscape c encodeHost`: true when `c` may NOT appear raw in a host. -/
def shouldEscapeHost (c : Char) : Bool :=
  !(c.isAlphanum || c == '-' || c == '_' || c == '.' || c == '~'
    || hostExtraAllowed.contains c)

/-- The escaping modes of `net/url` that the splitter can reach. -/
inductive EncMode where
  | encodePath
  | encodeHost
  | encodeUserPassword
  | encodeFragment
deriving DecidableEq, Repr

/-- `unescape`: validates (and decodes) percent-escapes; in `encodeHost` mode
additionally rejects escapes below 0x80 (other than `%25`) and raw
disallowed ASCII host characters. -/
def unescapeGo (mode : EncMode) : List Char → Except String (List Char)
  | [] => .ok []
  | c :: rest =>
    if c = '%' then
      match rest with
      | a :: b :: rest2 =>
        if isHexDig a ∧ isHexDig b then
          if mode = .encodeHost ∧ unhex a < 8 ∧ ¬(a = '2' ∧ b = '5') then
            .error "invalid host byte escape"
          else
            match unescapeGo mode rest2 with
            | .error e => .error e
            | .ok r => .ok (Char.ofNat (unhex a * 16 + unhex b) :: r)
        else .error "invalid URL escape"
      | _ => .error "invalid URL escape"
    else
      if mode = .encodeHost ∧ c.toNat < 0x80 ∧ shouldEscapeHost c then
        .error "invalid character in host name"
      else
        match unescapeGo mode rest with
        | .error e => .error e
        | .ok r => .ok (c :: r)
  termination_by l => l.length
  decreasing_by
    · simp only [List.length_cons]
      omega
    · simp only [List.length_cons]
      omega

/-- `validOptionalPort`: empty, or a colon followed by decimal digits. -/
def validOptionalPort (port : String) : Bool :=
  match port.data with
  | [] => true
  | c :: rest => c == ':' && rest.all Char.isDigit

/-- Allowed userinfo characters (`validUserinfo`). -/
def validUserinfoChar (c : Char) : Bool :=
  c.isAlphanum ||
    ['-', '.', '_', ':', '~', '!', '$', '&', squote, '(', ')', '*', '+', ',',
     ';', '=', '%', '@'].contains c

/-- Split at the first occurrence of `sep`; `none` when absent
(`split` in `net/url` with `cutc = true`). -/
def splitOnce (s : String) (sep : Char) : String × Option String :=
  let p := s.data.span (fun c => c ≠ sep)
  match p.2 with
  | [] => (s, none)
  | _ :: t => (p.1.asString, some t.asString)

/-- `getScheme` scan loop: `seen` holds the scheme characters read so far,
reversed.  Result `none` means no scheme (the whole input is the remainder). -/
def getSchemeGo : List Char → List Char → Except String (Option (String × String))
  | _, [] => .ok none
  | seen, c :: rest =>
    if c.isAlpha then getSchemeGo (c :: seen) rest
    else if c.isDigit ∨ c = '+' ∨ c = '-' ∨ c = '.' then
      if seen = [] then .ok none else getSchemeGo (c :: seen) rest
    else if c = ':' then
      if seen = [] then .error "missing protocol scheme"
      else .ok (some (seen.reverse.asString, rest.asString))
    else .ok none

/-- `getScheme`: splits a leading `scheme:` off the URL when present. -/
def getScheme (raw : String) : Except String (String × String) :=
  match getSchemeGo [] raw.data with
  | .error e => .error e
  | .ok none => .ok ("", raw)
  | .ok (some p) => .ok p

/-- `parseHost`: validates an optional port and the host characters
(bracketed IPv6 hosts keep their brackets; zone identifiers simplified). -/
def parseHost (host : String) : Except String String :=
  if host.data.head? = some '[' then
    let r := host.data.reverse
    let afterBracket := r.takeWhile (fun c => c ≠ ']')
    if afterBracket.length = r.length then
      .error "missing right bracket in host"
    else
      let colonPort := afterBracket.reverse.asString
      if ¬ validOptionalPort colonPort then .error "invalid port after host"
      else (unescapeGo .encodeHost host.data).map List.asString
  else
    let r := host.data.reverse
    let afterColon := r.takeWhile (fun c => c ≠ ':')
    if afterColon.length = r.length then
      (unescapeGo .encodeHost host.data).map List.asString
    else
      let colonPort := (':' :: afterColon.reverse).asString
      if ¬ validOptionalPort colonPort then .error "invalid port after host"
      else (unescapeGo .encodeHost host.data).map List.asString

/-- `parseAuthority`: splits `userinfo@host` at the last `@`, validates the
userinfo and parses the host; only the host is returned (the splitter never
reads `User`). -/
def parseAuthority (authority : String) : Except String String :=
  let r := authority.data.reverse
  let afterAt := r.takeWhile (fun c => c ≠ '@')
  if afterAt.length = r.length then
    parseHost authority
  else
    match parseHost afterAt.reverse.asString with
    | .error e => .error e
    | .ok host =>
      let userinfo := (authority.data.take (authority.data.length - afterAt.length - 1))
      if ¬ userinfo.all validUserinfoChar then .error "net/url: invalid userinfo"
      else
        let p := userinfo.span (fun c => c ≠ ':')
        let pw := match p.2 with
          | [] => ([] : List Char)
          | _ :: t => t
        match unescapeGo .encodeUserPassword p.1 with
        | .error e => .error e
        | .ok _ =>
          match unescapeGo .encodeUserPassword pw with
          | .error e => .error e
          | .ok _ => .ok host

/-- `parse(rawURL, viaRequest := false)`: everything of `net/url.parse` except
fragment handling (done by `urlParse`). -/
def urlParseInner (rawURL : String) : Except String GoURL :=
  if containsCTLByte rawURL then
    .error "net/url: invalid control character in URL"
  else if rawURL = "*" then
    .ok { Scheme := "", Opaque := "", Host := "", Path := "*", RawQuery := "", Fragment := "" }
  else
    match getScheme rawURL with
    | .error e => .error e
    | .ok (scheme0, rest0) =>
      let scheme := (scheme0.data.map Char.toLower).asString
      let qsplit :=
        if rest0.data.getLast? = some '?'
            ∧ ¬ (rest0.data.take (rest0.data.length - 1)).contains '?' then
          ((rest0.data.take (rest0.data.length - 1)).asString, "")
        else
          match splitOnce rest0 '?' with
          | (a, none) => (a, "")
          | (a, some q) => (a, q)
      let rest := qsplit.1
      let rawQuery := qsplit.2
      if ¬ rest.data.head? = some '/' then
        if scheme ≠ "" then
          .ok { Scheme := scheme, Opaque := rest, Host := "", Path := "",
                RawQuery := rawQuery, Fragment := "" }
        else
          let segment := (splitOnce rest '/').1
          if segment.data.contains ':' then
            .error "first path segment in URL cannot contain colon"
          else
            match unescapeGo .encodePath rest.data with
            | .error e => .error e
            | .ok p =>
              .ok { Scheme := scheme, Opaque := "", Host := "", Path := p.asString,
                    RawQuery := rawQuery, Fragment := "" }
      else
        if (scheme ≠ "" ∨ ¬ ("///".data.isPrefixOf rest.data = true))
            ∧ "//".data.isPrefixOf rest.data = true then
          let rest2 := (rest.data.drop 2).asString
          let asplit :=
            match splitOnce rest2 '/' with
            | (a, none) => (a, "")
            | (a, some t) => (a, "/" ++ t)
          match parseAuthority asplit.1 with
          | .error e => .error e
          | .ok host =>
            match unescapeGo .encodePath asplit.2.data with
            | .error e => .error e
            | .ok p =>
              .ok { Scheme := scheme, Opaque := "", Host := host, Path := p.asString,
                    RawQuery := rawQuery, Fragment := "" }
        else
          match unescapeGo .encodePath rest.data with
          | .error e => .error e
          | .ok p =>
            .ok { Scheme := scheme, Opaque := "", Host := "", Path := p.asString,
                  RawQuery := rawQuery, Fragment := "" }

/-- `url.Parse`: splits a fragment off first, parses the remainder, then
validates/sets the fragment. -/
def urlParse (rawURL : String) : Except String GoURL :=
  let fsplit := splitOnce rawURL '#'
  match urlParseInner fsplit.1 with
  | .error e => .error e
  | .ok g =>
    match fsplit.2 with
    | none => .ok g
    | some f =>
      if f = "" then .ok g
      else
        match unescapeGo .encodeFragment f.data with
        | .error e => .error e
        | .ok d => .ok { g with Fragment := d.asString }

/-! ## Model of `encoding/xml`: serialization

`xml.MarshalIndent(v, "", "  ")` over the annotated structs produces a fixed
layout: every child element on its own line preceded by a newline and two
spaces per nesting level, `omitempty` string fields skipped when empty, and
all text and attribute values escaped per `EscapeText`. -/

/-- `isInCharacterRange`: code points legal in an XML document. -/
def isInCharacterRange (c : Char) : Bool :=
  c.toNat == 0x09 || c.toNat == 0x0A || c.toNat == 0x0D ||
  (0x20 ≤ c.toNat && c.toNat ≤ 0xD7FF) ||
  (0xE000 ≤ c.toNat && c.toNat ≤ 0xFFFD) ||
  (0x10000 ≤ c.toNat && c.toNat ≤ 0x10FFFF)

/-- The Unicode replacement character emitted for XML-illegal code points. -/
def replChar : Char := Char.ofNat 0xFFFD

/-- `EscapeText` for one character. -/
def escChar (c : Char) : List Char :=
  if c = dquote then "&#34;".data
  else if c = squote then "&#39;".data
  else if c = '&' then "&amp;".data
  else if c = '<' then "&lt;".data
  else if c = '>' then "&gt;".data
  else if c = Char.ofNat 9 then "&#x9;".data
  else if c = Char.ofNat 10 then "&#xA;".data
  else if c = Char.ofNat 13 then "&#xD;".data
  else if ¬ isInCharacterRange c then [replChar]
  else [c]

/-- `EscapeText` on a whole string. -/
def escapeStr (s : String) : String :=
  ((s.data.map escChar).flatten).asString

/-- `xml.Header`. -/
def xmlHeader : String := "<?xml version=\"1.0\" encoding=\"UTF-8\"?>\n"

/-- One `<url>` element as `MarshalIndent` renders it at depth 1. -/
def marshalURL (u : URL) : String :=
  "\n  <url>"
  ++ "\n    <loc>" ++ escapeStr u.Loc ++ "</loc>"
  ++ (if u.LastMod = "" then ""
      else "\n    <lastmod>" ++ escapeStr u.LastMod ++ "</lastmod>")
  ++ (if u.ChangeFreq = "" then ""
      else "\n    <changefreq>" ++ escapeStr u.ChangeFreq ++ "</changefreq>")
  ++ (if u.Priority = "" then ""
      else "\n    <priority>" ++ escapeStr u.Priority ++ "</priority>")
  ++ "\n  </url>"

/-- `xml.MarshalIndent` of a `URLSet` with prefix `""` and indent two spaces. -/
def marshalURLSet (us : URLSet) : String :=
  "<urlset xmlns=\"" ++ escapeStr us.XMLNS ++ "\" xmlns:xhtml=\""
    ++ escapeStr us.XHTML ++ "\">"
  ++ String.join (us.URLs.map marshalURL)
  ++ (if us.URLs = [] then "" else "\n")
  ++ "</urlset>"

/-- One `<sitemap>` element (`lastmod` has no `omitempty`, so it is always
emitted). -/
def marshalSitemap (s : Sitemap) : String :=
  "\n  <sitemap>"
  ++ "\n    <loc>" ++ escapeStr s.Loc ++ "</loc>"
  ++ "\n    <lastmod>" ++ escapeStr s.LastMod ++ "</lastmod>"
  ++ "\n  </sitemap>"

/-- `xml.MarshalIndent` of a `SitemapIndex`. -/
def marshalSitemapIndex (si : SitemapIndex) : String :=
  "<sitemapindex xmlns=\"" ++ escapeStr si.XMLNS ++ "\">"
  ++ String.join (si.Sitemaps.map marshalSitemap)
  ++ (if si.Sitemaps = [] then "" else "\n")
  ++ "</sitemapindex>"

/-! ## Model of `encoding/xml`: tokenizer and `Unmarshal`

A strict-mode tokenizer covering the markup `Unmarshal` meets on sitemap
documents: start/end tags with attributes, self-closing tags, character data
with entity references, processing instructions, comments, and CR/CRLF
line-ending normalization in character data.  (CDATA sections and DTDs are
rejected rather than handled; end-tag/start-tag name matching is enforced by
the decoding layer only through element structure.) -/

/-- XML name characters (ASCII approximation of the Go tokenizer's tables). -/
def isNameChar (c : Char) : Bool :=
  c.isAlphanum || c == '-' || c == '_' || c == '.' || c == ':'

/-- XML whitespace. -/
def isXmlSpace (c : Char) : Bool :=
  c == ' ' || c == Char.ofNat 9 || c == Char.ofNat 10 || c == Char.ofNat 13

/-- Decode the body of an entity reference (between `&` and `;`). -/
def decodeEntity (name : List Char) : Option Char :=
  if name = "lt".data then some '<'
  else if name = "gt".data then some '>'
  else if name = "amp".data then some '&'
  else if name = "apos".data then some squote
  else if name = "quot".data then some dquote
  else
    match name with
    | '#' :: 'x' :: ds =>
      if ds ≠ [] ∧ ds.all isHexDig then
        let v := ds.foldl (fun acc c => acc * 16 + unhex c) 0
        if Nat.isValidChar v then some (Char.ofNat v) else none
      else none
    | '#' :: ds =>
      if ds ≠ [] ∧ ds.all Char.isDigit then
        let v := ds.foldl (fun acc c => acc * 10 + (c.toNat - 48)) 0
        if Nat.isValidChar v then some (Char.ofNat v) else none
      else none
    | _ => none

/-- Character data scan: collect text up to the next `<` (or end of input),
decoding entity references and normalizing CR / CRLF to LF. -/
def scanText : List Char → Except String (List Char × List Char)
  | [] => .ok ([], [])
  | c :: rest =>
    if c = '<' then .ok ([], c :: rest)
    else if c = '&' then
      let name := rest.takeWhile (fun x => x ≠ ';')
      if name.length = rest.length then .error "invalid character entity"
      else
        match decodeEntity name with
        | none => .error "invalid character entity"
        | some ch =>
          match scanText (rest.drop (name.length + 1)) with
          | .error e => .error e
          | .ok (t, r) => .ok (ch :: t, r)
    else if c = Char.ofNat 13 then
      if rest.head? = some (Char.ofNat 10) then
        match scanText rest with
        | .error e => .error e
        | .ok (t, r) => .ok (t, r)
      else
        match scanText rest with
        | .error e => .error e
        | .ok (t, r) => .ok (Char.ofNat 10 :: t, r)
    else
      match scanText rest with
      | .error e => .error e
      | .ok (t, r) => .ok (c :: t, r)
  termination_by l => l.length
  decreasing_by
    · simp only [List.length_drop, List.length_cons]
      omega
    · simp only [List.length_cons]
      omega
    · simp only [List.length_cons]
      omega
    · simp only [List.length_cons]
      omega

theorem scanText_rest_le : ∀ (l t r : List Char), scanText l = .ok (t, r) →
    r.length ≤ l.length := by
  intro l
  generalize hn : l.length = n
  induction n using Nat.strong_induction_on generalizing l with
  | _ n ih =>
    subst hn
    intro t r h
    match l with
    | [] =>
      rw [scanText] at h
      cases h
      simp
    | c :: rest =>
      rw [scanText] at h
      by_cases hc : c = '<'
      · rw [if_pos hc] at h
        cases h
        simp
      · rw [if_neg hc] at h
        by_cases ha : c = '&'
        · rw [if_pos ha] at h
          dsimp only [] at h
          split at h
          · exact absurd h (by simp)
          · split at h
            · exact absurd h (by simp)
            · rename_i hlen ch hch
              split at h
              · exact absurd h (by simp)
              · rename_i t2 r2 hrec
                cases h
                have hle := ih ((rest.drop ((rest.takeWhile (fun x => x ≠ ';')).length + 1)).length)
                  (by simp only [List.length_drop, List.length_cons]; omega) _ rfl _ _ hrec
                simp only [List.length_drop] at hle
                simp only [List.length_cons]
                omega
        · rw [if_neg ha] at h
          by_cases hcr : c = Char.ofNat 13
          · rw [if_pos hcr] at h
            by_cases hlf : rest.head? = some (Char.ofNat 10)
            · rw [if_pos hlf] at h
              split at h
              · exact absurd h (by simp)
              · rename_i t2 r2 hrec
                cases h
                have hle := ih rest.length (by simp) _ rfl _ _ hrec
                simp only [List.length_cons]
                omega
            · rw [if_neg hlf] at h
              split at h
              · exact absurd h (by simp)
              · rename_i t2 r2 hrec
                cases h
                have hle := ih rest.length (by simp) _ rfl _ _ hrec
                simp only [List.length_cons]
                omega
          · rw [if_neg hcr] at h
            split at h
            · exact absurd h (by simp)
            · rename_i t2 r2 hrec
              cases h
              have hle := ih rest.length (by simp) _ rfl _ _ hrec
              simp only [List.length_cons]
              omega

/-- Attribute value scan: collect text up to the closing quote `q`,
decoding entity references. -/
def scanAttrValue (q : Char) : List Char → Except String (List Char × List Char)
  | [] => .error "unexpected EOF in attribute value"
  | c :: rest =>
    if c = q then .ok ([], rest)
    else if c = '&' then
      let name := rest.takeWhile (fun x => x ≠ ';')
      if name.length = rest.length then .error "invalid character entity"
      else
        match decodeEntity name with
        | none => .error "invalid character entity"
        | some ch =>
          match scanAttrValue q (rest.drop (name.length + 1)) with
          | .error e => .error e
          | .ok (t, r) => .ok (ch :: t, r)
    else
      match scanAttrValue q rest with
      | .error e => .error e
      | .ok (t, r) => .ok (c :: t, r)
  termination_by l => l.length
  decreasing_by
    · simp only [List.length_drop, List.length_cons]
      omega
    · simp only [List.length_cons]
      omega

theorem scanAttrValue_rest_lt (q : Char) : ∀ (l t r : List Char),
    scanAttrValue q l = .ok (t, r) → r.length < l.length := by
  intro l
  generalize hn : l.length = n
  induction n using Nat.strong_induction_on generalizing l with
  | _ n ih =>
    subst hn
    intro t r h
    match l with
    | [] =>
      rw [scanAttrValue] at h
      cases h
    | c :: rest =>
      rw [scanAttrValue] at h
      by_cases hq : c = q
      · rw [if_pos hq] at h
        cases h
        simp
      · rw [if_neg hq] at h
        by_cases ha : c = '&'
        · rw [if_pos ha] at h
          dsimp only [] at h
          split at h
          · exact absurd h (by simp)
          · split at h
            · exact absurd h (by simp)
            · rename_i hlen ch hch
              split at h
              · exact absurd h (by simp)
              · rename_i t2 r2 hrec
                cases h
                have hle := ih ((rest.drop ((rest.takeWhile (fun x => x ≠ ';')).length + 1)).length)
                  (by simp only [List.length_drop, List.length_cons]; omega) _ rfl _ _ hrec
                simp only [List.length_drop] at hle
                simp only [List.length_cons]
                omega
        · rw [if_neg ha] at h
          split at h
          · exact absurd h (by simp)
          · rename_i t2 r2 hrec
            cases h
            have hle := ih rest.length (by simp) _ rfl _ _ hrec
            simp only [List.length_cons]
            omega

/-- Sum of `takeWhile` and `dropWhile` lengths. -/
theorem length_takeWhile_add_dropWhile (p : Char → Bool) (l : List Char) :
    (l.takeWhile p).length + (l.dropWhile p).length = l.length := by
  induction l with
  | nil => rfl
  | cons c cs ih =>
    cases h : p c
    · simp only [List.takeWhile_cons, List.dropWhile_cons, h]
      simp only [Bool.false_eq_true, if_false, List.length_nil, List.length_cons]
      omega
    · simp only [List.takeWhile_cons, List.dropWhile_cons, h, if_true, List.length_cons]
      omega

/-- Parse the attribute list of a start tag, beginning right after the tag
name; returns the attributes, whether the tag was self-closing, and the
input after `>`. -/
def parseAttrs : List Char → Except String (List (String × String) × Bool × List Char)
  | [] => .error "unexpected EOF in tag"
  | c :: rest =>
    if isXmlSpace c then parseAttrs rest
    else if c = '>' then .ok ([], false, rest)
    else if c = '/' then
      if rest.head? = some '>' then .ok ([], true, rest.tail)
      else .error "malformed tag"
    else
      if hname : (c :: rest).takeWhile isNameChar = [] then .error "malformed tag"
      else
        if heq : (((c :: rest).dropWhile isNameChar).dropWhile isXmlSpace).head?
            = some '=' then
          match hq : ((((c :: rest).dropWhile isNameChar).dropWhile isXmlSpace).tail.dropWhile
              isXmlSpace).head? with
          | none => .error "unexpected EOF in tag"
          | some q =>
            if q = dquote ∨ q = squote then
              match h4 : scanAttrValue q ((((c :: rest).dropWhile isNameChar).dropWhile
                  isXmlSpace).tail.dropWhile isXmlSpace).tail with
              | .error e => .error e
              | .ok (v, r6) =>
                match parseAttrs r6 with
                | .error e => .error e
                | .ok (attrs, sc, r7) =>
                  .ok ((((c :: rest).takeWhile isNameChar).asString, v.asString) :: attrs,
                       sc, r7)
            else .error "malformed attribute"
        else .error "malformed attribute"
  termination_by l => l.length
  decreasing_by
    · simp only [List.length_cons]
      omega
    · have e1 := length_takeWhile_add_dropWhile isNameChar (c :: rest)
      have e2 := length_takeWhile_add_dropWhile isXmlSpace ((c :: rest).dropWhile isNameChar)
      have e3 := length_takeWhile_add_dropWhile isXmlSpace
        ((((c :: rest).dropWhile isNameChar).dropWhile isXmlSpace).tail)
      have e4 := scanAttrValue_rest_lt q _ v r6 h4
      have e5 : ((c :: rest).takeWhile isNameChar).length ≠ 0 := fun hz =>
        hname (List.eq_nil_of_length_eq_zero hz)
      have e6 : (((c :: rest).dropWhile isNameChar).dropWhile isXmlSpace) ≠ [] := by
        intro hB
        rw [hB] at heq
        simp at heq
      have e7 : ((((c :: rest).dropWhile isNameChar).dropWhile isXmlSpace).tail.dropWhile
          isXmlSpace) ≠ [] := by
        intro hC
        rw [hC] at hq
        simp at hq
      have e8 := List.length_tail (((c :: rest).dropWhile isNameChar).dropWhile isXmlSpace)
      have e9 := List.length_tail ((((c :: rest).dropWhile isNameChar).dropWhile
          isXmlSpace).tail.dropWhile isXmlSpace)
      have e10 : 0 < (((c :: rest).dropWhile isNameChar).dropWhile isXmlSpace).length :=
        List.length_pos.mpr e6
      have e11 : 0 < ((((c :: rest).dropWhile isNameChar).dropWhile isXmlSpace).tail.dropWhile
          isXmlSpace).length := List.length_pos.mpr e7
      simp only [List.length_cons] at e1 ⊢
      omega

theorem parseAttrs_rest_lt : ∀ (l : List Char) attrs sc r,
    parseAttrs l = .ok (attrs, sc, r) → r.length < l.length := by
  intro l
  generalize hn : l.length = n
  induction n using Nat.strong_induction_on generalizing l with
  | _ n ih =>
    subst hn
    intro attrs sc r h
    match l with
    | [] =>
      rw [parseAttrs] at h
      cases h
    | c :: rest =>
      rw [parseAttrs] at h
      by_cases hs : isXmlSpace c
      · rw [if_pos hs] at h
        have := ih rest.length (by simp) _ rfl _ _ _ h
        simp only [List.length_cons]
        omega
      · rw [if_neg hs] at h
        by_cases hgt : c = '>'
        · rw [if_pos hgt] at h
          cases h
          simp
        · rw [if_neg hgt] at h
          by_cases hsl : c = '/'
          · rw [if_pos hsl] at h
            by_cases hbr : rest.head? = some '>'
            · rw [if_pos hbr] at h
              cases h
              have := List.length_tail rest
              simp only [List.length_cons]
              omega
            · rw [if_neg hbr] at h
              cases h
          · rw [if_neg hsl] at h
            split at h
            · exact absurd h (by simp)
            · rename_i hname
              split at h
              · rename_i heq
                split at h
                · exact absurd h (by simp)
                · rename_i q hq
                  split at h
                  · rename_i hquote
                    split at h
                    · exact absurd h (by simp)
                    · rename_i v r6 h4
                      split at h
                      · exact absurd h (by simp)
                      · rename_i attrs2 sc2 r7 hrec
                        cases h
                        have e1 := length_takeWhile_add_dropWhile isNameChar (c :: rest)
                        have e2 := length_takeWhile_add_dropWhile isXmlSpace
                          ((c :: rest).dropWhile isNameChar)
                        have e3 := length_takeWhile_add_dropWhile isXmlSpace
                          ((((c :: rest).dropWhile isNameChar).dropWhile isXmlSpace).tail)
                        have e4 := scanAttrValue_rest_lt q _ v r6 h4
                        have e5 : ((c :: rest).takeWhile isNameChar).length ≠ 0 := fun hz =>
                          hname (List.eq_nil_of_length_eq_zero hz)
                        have e6 : (((c :: rest).dropWhile isNameChar).dropWhile isXmlSpace)
                            ≠ [] := by
                          intro hB
                          rw [hB] at heq
                          simp at heq
                        have e7 : ((((c :: rest).dropWhile isNameChar).dropWhile
                            isXmlSpace).tail.dropWhile isXmlSpace) ≠ [] := by
                          intro hC
                          rw [hC] at hq
                          simp at hq
                        have e8 := List.length_tail
                          (((c :: rest).dropWhile isNameChar).dropWhile isXmlSpace)
                        have e9 := List.length_tail ((((c :: rest).dropWhile
                            isNameChar).dropWhile isXmlSpace).tail.dropWhile isXmlSpace)
                        have e10 : 0 < (((c :: rest).dropWhile isNameChar).dropWhile
                            isXmlSpace).length := List.length_pos.mpr e6
                        have e11 : 0 < ((((c :: rest).dropWhile isNameChar).dropWhile
                            isXmlSpace).tail.dropWhile isXmlSpace).length :=
                          List.length_pos.mpr e7
                        simp only [List.length_cons] at e1 ⊢
                        have e12 : r6.length < rest.length + 1 := by omega
                        have := ih r6.length e12 _ rfl _ _ _ hrec
                        omega
                  · exact absurd h (by simp)
              · exact absurd h (by simp)

/-- Skip a processing instruction body: consume everything through `?>`. -/
def dropThroughPI : List Char → Except String (List Char)
  | [] => .error "unexpected EOF in processing instruction"
  | c :: rest =>
    if c = '?' ∧ rest.head? = some '>' then .ok rest.tail
    else dropThroughPI rest

theorem dropThroughPI_rest_lt : ∀ (l r : List Char),
    dropThroughPI l = .ok r → r.length < l.length := by
  intro l
  induction l with
  | nil =>
    intro r h
    rw [dropThroughPI] at h
    cases h
  | cons c rest ih =>
    intro r h
    rw [dropThroughPI] at h
    split at h
    · cases h
      have := List.length_tail rest
      simp only [List.length_cons]
      omega
    · have := ih _ h
      simp only [List.length_cons]
      omega

/-- Skip a comment body: consume everything through `-->`. -/
def dropThroughComment : List Char → Except String (List Char)
  | [] => .error "unexpected EOF in comment"
  | c :: rest =>
    if c = '-' ∧ rest.head? = some '-' ∧ rest.tail.head? = some '>' then .ok rest.tail.tail
    else dropThroughComment rest

theorem dropThroughComment_rest_lt : ∀ (l r : List Char),
    dropThroughComment l = .ok r → r.length < l.length := by
  intro l
  induction l with
  | nil =>
    intro r h
    rw [dropThroughComment] at h
    cases h
  | cons c rest ih =>
    intro r h
    rw [dropThroughComment] at h
    split at h
    · cases h
      have h1 := List.length_tail rest
      have h2 := List.length_tail rest.tail
      simp only [List.length_cons]
      omega
    · have := ih _ h
      simp only [List.length_cons]
      omega

theorem scanText_rest_le_of_ne (c : Char) (rest t r : List Char) (hc : ¬ c = '<')
    (h : scanText (c :: rest) = .ok (t, r)) : r.length ≤ rest.length := by
  rw [scanText] at h
  rw [if_neg hc] at h
  by_cases ha : c = '&'
  · rw [if_pos ha] at h
    dsimp only [] at h
    split at h
    · exact absurd h (by simp)
    · split at h
      · exact absurd h (by simp)
      · rename_i hlen ch hch
        split at h
        · exact absurd h (by simp)
        · rename_i t2 r2 hrec
          cases h
          have := scanText_rest_le _ _ _ hrec
          simp only [List.length_drop] at this
          omega
  · rw [if_neg ha] at h
    by_cases hcr : c = Char.ofNat 13
    · rw [if_pos hcr] at h
      by_cases hlf : rest.head? = some (Char.ofNat 10)
      · rw [if_pos hlf] at h
        split at h
        · exact absurd h (by simp)
        · rename_i t2 r2 hrec
          cases h
          exact scanText_rest_le _ _ _ hrec
      · rw [if_neg hlf] at h
        split at h
        · exact absurd h (by simp)
        · rename_i t2 r2 hrec
          cases h
          exact scanText_rest_le _ _ _ hrec
    · rw [if_neg hcr] at h
      split at h
      · exact absurd h (by simp)
      · rename_i t2 r2 hrec
        cases h
        exact scanText_rest_le _ _ _ hrec

/-- Tokens produced by the tokenizer.  A self-closing tag becomes a start
token immediately followed by an end token, as in `encoding/xml`. -/
inductive XmlTok where
  | startTag (name : String) (attrs : List (String × String))
  | endTag (name : String)
  | chardata (s : String)
deriving DecidableEq, Repr

/-- The tokenizer: the whole input to a token list, or a syntax error. -/
def tokenize : List Char → Except String (List XmlTok)
  | [] => .ok []
  | c :: rest =>
    if hlt : c = '<' then
      if rest.head? = some '?' then
        match hpi : dropThroughPI rest.tail with
        | .error e => .error e
        | .ok r3 => tokenize r3
      else if rest.head? = some '!' then
        if rest.tail.head? = some '-' ∧ rest.tail.tail.head? = some '-' then
          match hcm : dropThroughComment rest.tail.tail.tail with
          | .error e => .error e
          | .ok r4 => tokenize r4
        else .error "unsupported markup"
      else if rest.head? = some '/' then
        if hname : rest.tail.takeWhile isNameChar = [] then .error "malformed end tag"
        else
          if hbr : ((rest.tail.dropWhile isNameChar).dropWhile isXmlSpace).head?
              = some '>' then
            match tokenize ((rest.tail.dropWhile isNameChar).dropWhile isXmlSpace).tail with
            | .error e => .error e
            | .ok toks => .ok (.endTag (rest.tail.takeWhile isNameChar).asString :: toks)
          else .error "malformed end tag"
      else
        if hname : rest.takeWhile isNameChar = [] then .error "malformed start tag"
        else
          match hattrs : parseAttrs (rest.dropWhile isNameChar) with
          | .error e => .error e
          | .ok (attrs, sc, r2) =>
            match tokenize r2 with
            | .error e => .error e
            | .ok toks =>
              if sc then
                .ok (.startTag (rest.takeWhile isNameChar).asString attrs
                     :: .endTag (rest.takeWhile isNameChar).asString :: toks)
              else
                .ok (.startTag (rest.takeWhile isNameChar).asString attrs :: toks)
    else
      match htext : scanText (c :: rest) with
      | .error e => .error e
      | .ok (t, r) =>
        match tokenize r with
        | .error e => .error e
        | .ok toks => .ok (.chardata t.asString :: toks)
  termination_by l => l.length
  decreasing_by
    · have e1 := dropThroughPI_rest_lt rest.tail r3 hpi
      have e2 := List.length_tail rest
      simp only [List.length_cons]
      omega
    · have e1 := dropThroughComment_rest_lt rest.tail.tail.tail r4 hcm
      have e2 := List.length_tail rest
      have e3 := List.length_tail rest.tail
      have e4 := List.length_tail rest.tail.tail
      simp only [List.length_cons]
      omega
    · have e1 := length_takeWhile_add_dropWhile isNameChar rest.tail
      have e2 := length_takeWhile_add_dropWhile isXmlSpace (rest.tail.dropWhile isNameChar)
      have e3 : ((rest.tail.dropWhile isNameChar).dropWhile isXmlSpace) ≠ [] := by
        intro hB
        rw [hB] at hbr
        simp at hbr
      have e4 := List.length_tail ((rest.tail.dropWhile isNameChar).dropWhile isXmlSpace)
      have e5 : 0 < ((rest.tail.dropWhile isNameChar).dropWhile isXmlSpace).length :=
        List.length_pos.mpr e3
      have e6 := List.length_tail rest
      simp only [List.length_cons]
      omega
    · have e1 := length_takeWhile_add_dropWhile isNameChar rest
      have e2 := parseAttrs_rest_lt (rest.dropWhile isNameChar) attrs sc r2 hattrs
      simp only [List.length_cons]
      omega
    · have e1 := scanText_rest_le_of_ne c rest t r hlt htext
      simp only [List.length_cons]
      omega

/-- Consume tokens until the end tag that closes the already-consumed start
tag at nesting depth `d` (the `Decoder.Skip` behaviour). -/
def skipToEndTok : Nat → List XmlTok → Option (List XmlTok)
  | _, [] => none
  | d, t :: ts =>
    match t with
    | .startTag _ _ => skipToEndTok (d + 1) ts
    | .endTag _ => if d = 0 then some ts else skipToEndTok (d - 1) ts
    | .chardata _ => skipToEndTok d ts

theorem skipToEndTok_rest_lt : ∀ (d : Nat) (ts ts2 : List XmlTok),
    skipToEndTok d ts = some ts2 → ts2.length < ts.length := by
  intro d ts
  induction ts generalizing d with
  | nil =>
    intro ts2 h
    rw [skipToEndTok.eq_def] at h
    cases h
  | cons t ts ih =>
    intro ts2 h
    match t with
    | .startTag n a =>
      rw [skipToEndTok.eq_def] at h
      dsimp only [] at h
      have := ih _ _ h
      simp only [List.length_cons]
      omega
    | .endTag n =>
      rw [skipToEndTok.eq_def] at h
      dsimp only [] at h
      split at h
      · cases h
        simp
      · have := ih _ _ h
        simp only [List.length_cons]
        omega
    | .chardata str =>
      rw [skipToEndTok.eq_def] at h
      dsimp only [] at h
      have := ih _ _ h
      simp only [List.length_cons]
      omega

/-- Collect the character data of the current element, skipping nested
elements, up to the closing end tag: the behaviour of `Unmarshal` for a
string-typed field. -/
def readTextTok : List XmlTok → Option (String × List XmlTok)
  | [] => none
  | .chardata s :: ts =>
    match readTextTok ts with
    | none => none
    | some (t, r) => some (s ++ t, r)
  | .endTag _ :: ts => some ("", ts)
  | .startTag _ _ :: ts =>
    match hsk : skipToEndTok 0 ts with
    | none => none
    | some ts2 => readTextTok ts2
  termination_by l => l.length
  decreasing_by
    · simp only [List.length_cons]
      omega
    · have := skipToEndTok_rest_lt 0 ts ts2 hsk
      simp only [List.length_cons]
      omega

theorem readTextTok_rest_lt : ∀ (l : List XmlTok) (t : String) (r : List XmlTok),
    readTextTok l = some (t, r) → r.length < l.length := by
  intro l
  generalize hn : l.length = n
  induction n using Nat.strong_induction_on generalizing l with
  | _ n ih =>
    subst hn
    intro t r h
    match l with
    | [] =>
      rw [readTextTok] at h
      cases h
    | .chardata s :: ts =>
      rw [readTextTok] at h
      split at h
      · cases h
      · rename_i t2 r2 hrec
        cases h
        have := ih ts.length (by simp) _ rfl _ _ hrec
        simp only [List.length_cons]
        omega
    | .endTag nm :: ts =>
      rw [readTextTok] at h
      cases h
      simp
    | .startTag nm a :: ts =>
      rw [readTextTok] at h
      split at h
      · cases h
      · rename_i ts2 hsk
        have h1 := skipToEndTok_rest_lt 0 ts ts2 hsk
        have := ih ts2.length (by simp only [List.length_cons]; omega) _ rfl _ _ h
        simp only [List.length_cons]
        omega

/-- Decode the children of one `<url>` element into a `URL` value
(string fields `loc`, `lastmod`, `changefreq`, `priority`; unknown child
elements are skipped; later occurrences overwrite earlier ones). -/
def decodeURLFields (u : URL) : List XmlTok → Option (URL × List XmlTok)
  | [] => none
  | .endTag _ :: ts => some (u, ts)
  | .chardata _ :: ts => decodeURLFields u ts
  | .startTag n _ :: ts =>
    if n = "loc" then
      match hrt : readTextTok ts with
      | none => none
      | some (v, ts2) => decodeURLFields { u with Loc := v } ts2
    else if n = "lastmod" then
      match hrt : readTextTok ts with
      | none => none
      | some (v, ts2) => decodeURLFields { u with LastMod := v } ts2
    else if n = "changefreq" then
      match hrt : readTextTok ts with
      | none => none
      | some (v, ts2) => decodeURLFields { u with ChangeFreq := v } ts2
    else if n = "priority" then
      match hrt : readTextTok ts with
      | none => none
      | some (v, ts2) => decodeURLFields { u with Priority := v } ts2
    else
      match hsk : skipToEndTok 0 ts with
      | none => none
      | some ts2 => decodeURLFields u ts2
  termination_by l => l.length
  decreasing_by
    · simp only [List.length_cons]
      omega
    · have := readTextTok_rest_lt ts v ts2 hrt
      simp only [List.length_cons]
      omega
    · have := readTextTok_rest_lt ts v ts2 hrt
      simp only [List.length_cons]
      omega
    · have := readTextTok_rest_lt ts v ts2 hrt
      simp only [List.length_cons]
      omega
    · have := readTextTok_rest_lt ts v ts2 hrt
      simp only [List.length_cons]
      omega
    · have := skipToEndTok_rest_lt 0 ts ts2 hsk
      simp only [List.length_cons]
      omega

theorem decodeURLFields_rest_lt : ∀ (l : List XmlTok) (u u2 : URL) (r : List XmlTok),
    decodeURLFields u l = some (u2, r) → r.length < l.length := by
  intro l
  generalize hn : l.length = n
  induction n using Nat.strong_induction_on generalizing l with
  | _ n ih =>
    subst hn
    intro u u2 r h
    match l with
    | [] =>
      rw [decodeURLFields] at h
      cases h
    | .endTag nm :: ts =>
      rw [decodeURLFields] at h
      cases h
      simp
    | .chardata s :: ts =>
      rw [decodeURLFields] at h
      have := ih ts.length (by simp) _ rfl _ _ _ h
      simp only [List.length_cons]
      omega
    | .startTag nm a :: ts =>
      rw [decodeURLFields] at h
      by_cases h1 : nm = "loc"
      · rw [if_pos h1] at h
        split at h
        · cases h
        · rename_i v ts2 hrt
          have hlt := readTextTok_rest_lt ts v ts2 hrt
          have := ih ts2.length (by simp only [List.length_cons]; omega) _ rfl _ _ _ h
          simp only [List.length_cons]
          omega
      · rw [if_neg h1] at h
        by_cases h2 : nm = "lastmod"
        · rw [if_pos h2] at h
          split at h
          · cases h
          · rename_i v ts2 hrt
            have hlt := readTextTok_rest_lt ts v ts2 hrt
            have := ih ts2.length (by simp only [List.length_cons]; omega) _ rfl _ _ _ h
            simp only [List.length_cons]
            omega
        · rw [if_neg h2] at h
          by_cases h3 : nm = "changefreq"
          · rw [if_pos h3] at h
            split at h
            · cases h
            · rename_i v ts2 hrt
              have hlt := readTextTok_rest_lt ts v ts2 hrt
              have := ih ts2.length (by simp only [List.length_cons]; omega) _ rfl _ _ _ h
              simp only [List.length_cons]
              omega
          · rw [if_neg h3] at h
            by_cases h4 : nm = "priority"
            · rw [if_pos h4] at h
              split at h
              · cases h
              · rename_i v ts2 hrt
                have hlt := readTextTok_rest_lt ts v ts2 hrt
                have := ih ts2.length (by simp only [List.length_cons]; omega) _ rfl _ _ _ h
                simp only [List.length_cons]
                omega
            · rw [if_neg h4] at h
              split at h
              · cases h
              · rename_i ts2 hsk
                have hlt := skipToEndTok_rest_lt 0 ts ts2 hsk
                have := ih ts2.length (by simp only [List.length_cons]; omega) _ rfl _ _ _ h
                simp only [List.length_cons]
                omega

/-- Decode the `<url>` children of the `urlset` element (`[]URL` field with
tag `url`); other elements are skipped, character data is ignored. -/
def decodeURLs (acc : List URL) : List XmlTok → Option (List URL × List XmlTok)
  | [] => none
  | .endTag _ :: ts => some (acc.reverse, ts)
  | .chardata _ :: ts => decodeURLs acc ts
  | .startTag n _ :: ts =>
    if n = "url" then
      match hdf : decodeURLFields { Loc := "", LastMod := "", ChangeFreq := "", Priority := "" } ts with
      | none => none
      | some (u, ts2) => decodeURLs (u :: acc) ts2
    else
      match hsk : skipToEndTok 0 ts with
      | none => none
      | some ts2 => decodeURLs acc ts2
  termination_by l => l.length
  decreasing_by
    · simp only [List.length_cons]
      omega
    · have := decodeURLFields_rest_lt ts _ u ts2 hdf
      simp only [List.length_cons]
      omega
    · have := skipToEndTok_rest_lt 0 ts ts2 hsk
      simp only [List.length_cons]
      omega

/-- Attribute lookup: the last matching attribute wins, and a missing
attribute leaves the zero value `""` (as `Unmarshal` does for attr fields). -/
def lookupAttr (attrs : List (String × String)) (name : String) : String :=
  match (attrs.filter (fun a => a.1 = name)).getLast? with
  | none => ""
  | some a => a.2

/-- Skip character data before the root element (`Unmarshal` skips
non-element tokens until the first start element). -/
def dropLeadingMisc : List XmlTok → List XmlTok
  | .chardata _ :: ts => dropLeadingMisc ts
  | ts => ts

/-- `xml.Unmarshal(data, &urlset)`: tokenize, find the root element, check
its name is `urlset`, decode attributes and the `url` children. -/
def unmarshalURLSet (s : String) : Except String URLSet :=
  match tokenize s.data with
  | .error e => .error e
  | .ok toks =>
    match dropLeadingMisc toks with
    | .startTag n attrs :: ts =>
      if n = "urlset" then
        match decodeURLs [] ts with
        | none => .error "unexpected EOF"
        | some (us, _) =>
          .ok { XMLNS := lookupAttr attrs "xmlns"
                XHTML := lookupAttr attrs "xmlns:xhtml"
                URLs := us }
      else .error "expected element type urlset"
    | _ => .error "no root element found"

theorem asString_data (l : List Char) : (l.asString).data = l := rfl

theorem string_eq_of_data (a b : String) (h : a.data = b.data) : a = b := by
  cases a
  cases b
  exact congrArg String.mk h

/-! ## Round-trip: basic string facts -/

theorem data_append (a b : String) : (a ++ b).data = a.data ++ b.data := rfl

theorem join_data : ∀ (l : List String) (acc : String),
    (l.foldl (· ++ ·) acc).data = acc.data ++ (l.map String.data).flatten := by
  intro l
  induction l with
  | nil => intro acc; simp
  | cons s rest ih =>
    intro acc
    simp only [List.foldl_cons, ih, data_append, List.map_cons, List.flatten_cons,
      List.append_assoc]

theorem stringJoin_cons_data (s : String) (l : List String) :
    (String.join (s :: l)).data = s.data ++ (String.join l).data := by
  show ((s :: l).foldl (· ++ ·) "").data = s.data ++ (l.foldl (· ++ ·) "").data
  rw [join_data, join_data]
  simp [List.map_cons, List.flatten_cons]

/-- A character kept if XML-legal, replaced by U+FFFD otherwise: the net
effect of `EscapeText` followed by entity decoding on one character. -/
def cleanChar (c : Char) : Char :=
  if isInCharacterRange c then c else replChar

/-- `cleanChar` over a whole string. -/
def cleanse (s : String) : String :=
  (s.data.map cleanChar).asString

theorem cleanse_empty : cleanse "" = "" := rfl

theorem takeWhile_ne_semi (name tail : List Char) (hno : ∀ x ∈ name, ¬ x = ';') :
    (name ++ ';' :: tail).takeWhile (fun x => x ≠ ';') = name := by
  induction name with
  | nil => simp [List.takeWhile_cons]
  | cons c cs ih =>
    simp only [List.cons_append, List.takeWhile_cons]
    have hc : ¬ c = ';' := hno c (by simp)
    rw [if_pos (by simp [hc]), ih (fun x hx => hno x (by simp [hx]))]

theorem drop_append_cons (a : List Char) (c : Char) (b : List Char) :
    (a ++ c :: b).drop (a.length + 1) = b := by
  induction a with
  | nil => simp
  | cons x xs ih => simpa using ih

theorem scanText_amp (name : List Char) (ch : Char) (tail t r : List Char)
    (hno : ∀ x ∈ name, ¬ x = ';')
    (hch : decodeEntity name = some ch)
    (hrec : scanText tail = .ok (t, r)) :
    scanText ('&' :: (name ++ ';' :: tail)) = .ok (ch :: t, r) := by
  rw [scanText]
  rw [if_neg (by decide), if_pos rfl]
  dsimp only []
  rw [takeWhile_ne_semi name tail hno]
  rw [if_neg (by simp only [List.length_append, List.length_cons]; omega)]
  rw [hch]
  dsimp only []
  rw [drop_append_cons, hrec]

theorem scanText_escape : ∀ (l rest : List Char), rest.head? = some '<' →
    scanText ((l.map escChar).flatten ++ rest) = .ok (l.map cleanChar, rest) := by
  intro l
  induction l with
  | nil =>
    intro rest h
    cases rest with
    | nil => simp at h
    | cons c r =>
      simp only [List.head?_cons, Option.some.injEq] at h
      subst h
      simp only [List.map_nil, List.flatten_nil, List.nil_append]
      rw [scanText, if_pos rfl]
  | cons c cs ih =>
    intro rest h
    have ihr := ih rest h
    simp only [List.map_cons, List.flatten_cons, List.append_assoc]
    by_cases h1 : c = dquote
    · subst h1
      exact scanText_amp ['#', '3', '4'] dquote _ _ _ (by decide) (by decide) ihr
    · by_cases h2 : c = squote
      · subst h2
        exact scanText_amp ['#', '3', '9'] squote _ _ _ (by decide) (by decide) ihr
      · by_cases h3 : c = '&'
        · subst h3
          exact scanText_amp ['a', 'm', 'p'] '&' _ _ _ (by decide) (by decide) ihr
        · by_cases h4 : c = '<'
          · subst h4
            exact scanText_amp ['l', 't'] '<' _ _ _ (by decide) (by decide) ihr
          · by_cases h5 : c = '>'
            · subst h5
              exact scanText_amp ['g', 't'] '>' _ _ _ (by decide) (by decide) ihr
            · by_cases h6 : c = Char.ofNat 9
              · subst h6
                exact scanText_amp ['#', 'x', '9'] (Char.ofNat 9) _ _ _ (by decide)
                  (by decide) ihr
              · by_cases h7 : c = Char.ofNat 10
                · subst h7
                  exact scanText_amp ['#', 'x', 'A'] (Char.ofNat 10) _ _ _ (by decide)
                    (by decide) ihr
                · by_cases h8 : c = Char.ofNat 13
                  · subst h8
                    exact scanText_amp ['#', 'x', 'D'] (Char.ofNat 13) _ _ _ (by decide)
                      (by decide) ihr
                  · by_cases hin : isInCharacterRange c
                    · have he : escChar c = [c] := by
                        rw [escChar, if_neg h1, if_neg h2, if_neg h3, if_neg h4,
                          if_neg h5, if_neg h6, if_neg h7, if_neg h8,
                          if_neg (fun hcon => hcon hin)]
                      rw [he]
                      show scanText (c :: ((cs.map escChar).flatten ++ rest)) = _
                      rw [scanText, if_neg h4, if_neg h3, if_neg h8, ihr]
                      have hcc : cleanChar c = c := by rw [cleanChar, if_pos hin]
                      rw [hcc]
                    · have he : escChar c = [replChar] := by
                        rw [escChar, if_neg h1, if_neg h2, if_neg h3, if_neg h4,
                          if_neg h5, if_neg h6, if_neg h7, if_neg h8, if_pos hin]
                      rw [he]
                      show scanText (replChar :: ((cs.map escChar).flatten ++ rest)) = _
                      rw [scanText, if_neg (by decide), if_neg (by decide),
                        if_neg (by decide), ihr]
                      have hcc : cleanChar c = replChar := by rw [cleanChar, if_neg hin]
                      rw [hcc]

theorem scanAttrValue_amp (name : List Char) (ch : Char) (tail t r : List Char)
    (hno : ∀ x ∈ name, ¬ x = ';')
    (hch : decodeEntity name = some ch)
    (hrec : scanAttrValue dquote tail = .ok (t, r)) :
    scanAttrValue dquote ('&' :: (name ++ ';' :: tail)) = .ok (ch :: t, r) := by
  rw [scanAttrValue]
  rw [if_neg (by decide), if_pos rfl]
  dsimp only []
  rw [takeWhile_ne_semi name tail hno]
  rw [if_neg (by simp only [List.length_append, List.length_cons]; omega)]
  rw [hch]
  dsimp only []
  rw [drop_append_cons, hrec]

theorem scanAttrValue_escape : ∀ (l rest : List Char),
    scanAttrValue dquote ((l.map escChar).flatten ++ dquote :: rest)
      = .ok (l.map cleanChar, rest) := by
  intro l
  induction l with
  | nil =>
    intro rest
    simp only [List.map_nil, List.flatten_nil, List.nil_append]
    rw [scanAttrValue, if_pos rfl]
  | cons c cs ih =>
    intro rest
    have ihr := ih rest
    simp only [List.map_cons, List.flatten_cons, List.append_assoc]
    by_cases h1 : c = dquote
    · subst h1
      exact scanAttrValue_amp ['#', '3', '4'] dquote _ _ _ (by decide) (by decide) ihr
    · by_cases h2 : c = squote
      · subst h2
        exact scanAttrValue_amp ['#', '3', '9'] squote _ _ _ (by decide) (by decide) ihr
      · by_cases h3 : c = '&'
        · subst h3
          exact scanAttrValue_amp ['a', 'm', 'p'] '&' _ _ _ (by decide) (by decide) ihr
        · by_cases h4 : c = '<'
          · subst h4
            exact scanAttrValue_amp ['l', 't'] '<' _ _ _ (by decide) (by decide) ihr
          · by_cases h5 : c = '>'
            · subst h5
              exact scanAttrValue_amp ['g', 't'] '>' _ _ _ (by decide) (by decide) ihr
            · by_cases h6 : c = Char.ofNat 9
              · subst h6
                exact scanAttrValue_amp ['#', 'x', '9'] (Char.ofNat 9) _ _ _ (by decide)
                  (by decide) ihr
              · by_cases h7 : c = Char.ofNat 10
                · subst h7
                  exact scanAttrValue_amp ['#', 'x', 'A'] (Char.ofNat 10) _ _ _
                    (by decide) (by decide) ihr
                · by_cases h8 : c = Char.ofNat 13
                  · subst h8
                    exact scanAttrValue_amp ['#', 'x', 'D'] (Char.ofNat 13) _ _ _
                      (by decide) (by decide) ihr
                  · by_cases hin : isInCharacterRange c
                    · have he : escChar c = [c] := by
                        rw [escChar, if_neg h1, if_neg h2, if_neg h3, if_neg h4,
                          if_neg h5, if_neg h6, if_neg h7, if_neg h8,
                          if_neg (fun hcon => hcon hin)]
                      rw [he]
                      show scanAttrValue dquote
                        (c :: ((cs.map escChar).flatten ++ dquote :: rest)) = _
                      rw [scanAttrValue, if_neg h1, if_neg h3, ihr]
                      have hcc : cleanChar c = c := by rw [cleanChar, if_pos hin]
                      rw [hcc]
                    · have he : escChar c = [replChar] := by
                        rw [escChar, if_neg h1, if_neg h2, if_neg h3, if_neg h4,
                          if_neg h5, if_neg h6, if_neg h7, if_neg h8, if_pos hin]
                      rw [he]
                      show scanAttrValue dquote
                        (replChar :: ((cs.map escChar).flatten ++ dquote :: rest)) = _
                      rw [scanAttrValue, if_neg (by decide), if_neg (by decide), ihr]
                      have hcc : cleanChar c = replChar := by rw [cleanChar, if_neg hin]
                      rw [hcc]

theorem scanText_plain : ∀ (a rest : List Char),
    (∀ c ∈ a, ¬ c = '<' ∧ ¬ c = '&' ∧ ¬ c = Char.ofNat 13) →
    rest.head? = some '<' →
    scanText (a ++ rest) = .ok (a, rest) := by
  intro a
  induction a with
  | nil =>
    intro rest _ h
    cases rest with
    | nil => simp at h
    | cons c r =>
      simp only [List.head?_cons, Option.some.injEq] at h
      subst h
      simp only [List.nil_append]
      rw [scanText, if_pos rfl]
  | cons c cs ih =>
    intro rest ha h
    have hc := ha c (by simp)
    simp only [List.cons_append]
    rw [scanText, if_neg hc.1, if_neg hc.2.1, if_neg hc.2.2,
      ih rest (fun x hx => ha x (by simp [hx])) h]

theorem takeWhile_append_stop (p : Char → Bool) (a : List Char) (c : Char)
    (b : List Char) (ha : ∀ x ∈ a, p x = true) (hc : p c = false) :
    (a ++ c :: b).takeWhile p = a ∧ (a ++ c :: b).dropWhile p = c :: b := by
  induction a with
  | nil => simp [List.takeWhile_cons, List.dropWhile_cons, hc]
  | cons x xs ih =>
    have hx := ha x (by simp)
    have ih2 := ih (fun y hy => ha y (by simp [hy]))
    simp only [List.cons_append, List.takeWhile_cons, List.dropWhile_cons, hx, if_true]
    exact ⟨by rw [ih2.1], ih2.2⟩

theorem nameChar_props (c : Char) (h : isNameChar c = true) :
    isXmlSpace c = false ∧ ¬ c = '>' ∧ ¬ c = '/' ∧ ¬ c = '?' ∧ ¬ c = '!'
      ∧ ¬ c = '=' ∧ ¬ c = '<' := by
  refine ⟨?_, ?_, ?_, ?_, ?_, ?_, ?_⟩
  · cases hsp : isXmlSpace c
    · rfl
    · exfalso
      simp only [isXmlSpace, Bool.or_eq_true, beq_iff_eq] at hsp
      rcases hsp with ((h1 | h1) | h1) | h1 <;>
        (rw [h1] at h; exact absurd h (by decide))
  all_goals intro he
  all_goals rw [he] at h
  all_goals exact absurd h (by decide)

theorem tokenize_nil : tokenize [] = .ok [] := by
  rw [tokenize.eq_def]

theorem tokenize_chardata_step (c : Char) (rest t r : List Char) (toks : List XmlTok)
    (hc : ¬ c = '<') (hst : scanText (c :: rest) = .ok (t, r))
    (htk : tokenize r = .ok toks) :
    tokenize (c :: rest) = .ok (.chardata t.asString :: toks) := by
  rw [tokenize.eq_def]
  dsimp only []
  rw [dif_neg hc, hst]
  dsimp only []
  rw [htk]

theorem tokenize_endTag_step (n0 : Char) (ns : List Char) (X : List Char)
    (toks : List XmlTok)
    (hall : ∀ c ∈ n0 :: ns, isNameChar c = true)
    (htk : tokenize X = .ok toks) :
    tokenize ('<' :: '/' :: (ns.cons n0 ++ '>' :: X))
      = .ok (.endTag (n0 :: ns).asString :: toks) := by
  have hstop := takeWhile_append_stop isNameChar (n0 :: ns) '>' X hall (by decide)
  have hq : ¬ (('/' :: (n0 :: ns ++ '>' :: X)).head? = some '?') := by simp
  have hb : ¬ (('/' :: (n0 :: ns ++ '>' :: X)).head? = some '!') := by simp
  have hnn : ¬ ((n0 :: ns ++ '>' :: X).takeWhile isNameChar = []) := by
    rw [hstop.1]
    simp
  rw [tokenize.eq_def]
  dsimp only []
  rw [dif_pos rfl]
  rw [if_neg hq, if_neg hb,
    if_pos (show ('/' :: (n0 :: ns ++ '>' :: X)).head? = some '/' from rfl)]
  simp only [List.tail_cons]
  rw [dif_neg hnn, hstop.2]
  simp only [List.dropWhile_cons]
  rw [if_neg (show ¬ (isXmlSpace '>' = true) by decide)]
  rw [dif_pos (show ('>' :: X).head? = some '>' from rfl)]
  simp only [List.tail_cons]
  rw [htk, hstop.1]

theorem parseAttrs_gt (X : List Char) : parseAttrs ('>' :: X) = .ok ([], false, X) := by
  rw [parseAttrs]
  rw [if_neg (show ¬ (isXmlSpace '>' = true) by decide), if_pos rfl]

theorem parseAttrs_space (c : Char) (l : List Char) (h : isXmlSpace c = true) :
    parseAttrs (c :: l) = parseAttrs l := by
  rw [parseAttrs, if_pos h]

theorem parseAttrs_attr_step (n0 : Char) (ns : List Char) (val : String)
    (rest : List Char) (attrs : List (String × String)) (sc : Bool) (r : List Char)
    (hall : ∀ c ∈ n0 :: ns, isNameChar c = true)
    (hrec : parseAttrs rest = .ok (attrs, sc, r)) :
    parseAttrs (n0 :: (ns ++ '=' :: dquote :: ((val.data.map escChar).flatten
        ++ dquote :: rest)))
      = .ok (((n0 :: ns).asString, cleanse val) :: attrs, sc, r) := by
  have h0 := hall n0 (by simp)
  have hp := nameChar_props n0 h0
  have htw : (n0 :: (ns ++ '=' :: dquote :: ((val.data.map escChar).flatten
      ++ dquote :: rest))).takeWhile isNameChar = n0 :: ns := by
    simpa [List.cons_append] using
      (takeWhile_append_stop isNameChar (n0 :: ns) '='
        (dquote :: ((val.data.map escChar).flatten ++ dquote :: rest)) hall (by decide)).1
  have hdw : (n0 :: (ns ++ '=' :: dquote :: ((val.data.map escChar).flatten
      ++ dquote :: rest))).dropWhile isNameChar
      = '=' :: dquote :: ((val.data.map escChar).flatten ++ dquote :: rest) := by
    simpa [List.cons_append] using
      (takeWhile_append_stop isNameChar (n0 :: ns) '='
        (dquote :: ((val.data.map escChar).flatten ++ dquote :: rest)) hall (by decide)).2
  rw [parseAttrs]
  rw [if_neg (by simp [hp.1]), if_neg hp.2.1, if_neg hp.2.2.1]
  rw [dif_neg (by rw [htw]; simp)]
  rw [hdw]
  rw [List.dropWhile_cons, if_neg (show ¬ (isXmlSpace '=' = true) by decide)]
  rw [dif_pos (show ('=' :: dquote :: ((val.data.map escChar).flatten
    ++ dquote :: rest)).head? = some '=' from rfl)]
  simp only [List.tail_cons]
  rw [List.dropWhile_cons, if_neg (show ¬ (isXmlSpace dquote = true) by decide)]
  simp only [List.head?_cons]
  rw [if_pos (Or.inl trivial)]
  simp only [List.tail_cons]
  rw [scanAttrValue_escape val.data rest]
  dsimp only []
  rw [hrec]
  dsimp only []
  rw [htw]
  rfl

theorem tokenize_startTag_gen (n0 : Char) (ns : List Char) (y0 : Char) (Y X : List Char)
    (attrs : List (String × String)) (toks : List XmlTok)
    (hall : ∀ c ∈ n0 :: ns, isNameChar c = true)
    (hy0 : isNameChar y0 = false)
    (hpa : parseAttrs (y0 :: Y) = .ok (attrs, false, X))
    (htk : tokenize X = .ok toks) :
    tokenize ('<' :: n0 :: (ns ++ y0 :: Y))
      = .ok (.startTag (n0 :: ns).asString attrs :: toks) := by
  have h0 := hall n0 (by simp)
  have hp := nameChar_props n0 h0
  have htw : (n0 :: (ns ++ y0 :: Y)).takeWhile isNameChar = n0 :: ns := by
    simpa [List.cons_append] using
      (takeWhile_append_stop isNameChar (n0 :: ns) y0 Y hall hy0).1
  have hdw : (n0 :: (ns ++ y0 :: Y)).dropWhile isNameChar = y0 :: Y := by
    simpa [List.cons_append] using
      (takeWhile_append_stop isNameChar (n0 :: ns) y0 Y hall hy0).2
  rw [tokenize.eq_def]
  dsimp only []
  rw [dif_pos rfl]
  rw [if_neg (show ¬ ((n0 :: (ns ++ y0 :: Y)).head? = some '?') by
      simp [hp.2.2.2.1]),
    if_neg (show ¬ ((n0 :: (ns ++ y0 :: Y)).head? = some '!') by
      simp [hp.2.2.2.2.1]),
    if_neg (show ¬ ((n0 :: (ns ++ y0 :: Y)).head? = some '/') by
      simp [hp.2.2.1])]
  rw [dif_neg (by rw [htw]; simp)]
  rw [hdw, hpa]
  dsimp only []
  rw [htk]
  dsimp only []
  rw [if_neg (show ¬ (false = true) by simp), htw]

theorem dropThroughPI_skip (a : List Char) (b : List Char)
    (h : ∀ c ∈ a, ¬ c = '?') :
    dropThroughPI (a ++ '?' :: '>' :: b) = .ok b := by
  induction a with
  | nil =>
    simp only [List.nil_append]
    rw [dropThroughPI, if_pos ⟨rfl, by simp⟩]
    rfl
  | cons c cs ih =>
    simp only [List.cons_append]
    rw [dropThroughPI, if_neg (fun hcon => (h c (by simp)) hcon.1)]
    exact ih (fun x hx => h x (by simp [hx]))

theorem tokenize_pi (X : List Char) :
    tokenize (xmlHeader.data ++ X) = tokenize ('\n' :: X) := by
  show tokenize ('<' :: '?' :: (("xml version=\"1.0\" encoding=\"UTF-8\"").data
    ++ '?' :: '>' :: ('\n' :: X))) = tokenize ('\n' :: X)
  rw [tokenize.eq_def]
  dsimp only []
  rw [dif_pos rfl]
  rw [if_pos (show ('?' :: (("xml version=\"1.0\" encoding=\"UTF-8\"").data
    ++ '?' :: '>' :: ('\n' :: X))).head? = some '?' from rfl)]
  simp only [List.tail_cons]
  rw [dropThroughPI_skip _ _ (by decide)]

theorem escChar_head (c : Char) : ∃ d ds, escChar c = d :: ds ∧ ¬ d = '<' := by
  rw [escChar]
  by_cases h1 : c = dquote
  · rw [if_pos h1]; exact ⟨'&', _, rfl, by decide⟩
  rw [if_neg h1]
  by_cases h2 : c = squote
  · rw [if_pos h2]; exact ⟨'&', _, rfl, by decide⟩
  rw [if_neg h2]
  by_cases h3 : c = '&'
  · rw [if_pos h3]; exact ⟨'&', _, rfl, by decide⟩
  rw [if_neg h3]
  by_cases h4 : c = '<'
  · rw [if_pos h4]; exact ⟨'&', _, rfl, by decide⟩
  rw [if_neg h4]
  by_cases h5 : c = '>'
  · rw [if_pos h5]; exact ⟨'&', _, rfl, by decide⟩
  rw [if_neg h5]
  by_cases h6 : c = Char.ofNat 9
  · rw [if_pos h6]; exact ⟨'&', _, rfl, by decide⟩
  rw [if_neg h6]
  by_cases h7 : c = Char.ofNat 10
  · rw [if_pos h7]; exact ⟨'&', _, rfl, by decide⟩
  rw [if_neg h7]
  by_cases h8 : c = Char.ofNat 13
  · rw [if_pos h8]; exact ⟨'&', _, rfl, by decide⟩
  rw [if_neg h8]
  by_cases hin : ¬ isInCharacterRange c
  · rw [if_pos hin]; exact ⟨replChar, [], rfl, by decide⟩
  · rw [if_neg hin]; exact ⟨c, [], rfl, h4⟩

theorem tokenize_textElem (n0 : Char) (ns : List Char) (v : String) (X : List Char)
    (toks : List XmlTok)
    (hall : ∀ c ∈ n0 :: ns, isNameChar c = true)
    (htk : tokenize X = .ok toks) :
    tokenize ('<' :: n0 :: (ns ++ '>' :: ((v.data.map escChar).flatten
        ++ '<' :: '/' :: (n0 :: ns ++ '>' :: X))))
      = .ok (.startTag (n0 :: ns).asString []
          :: ((if v = "" then [] else [.chardata (cleanse v)])
              ++ (.endTag (n0 :: ns).asString :: toks))) := by
  have hend : tokenize ('<' :: '/' :: (n0 :: ns ++ '>' :: X))
      = .ok (.endTag (n0 :: ns).asString :: toks) :=
    tokenize_endTag_step n0 ns X toks hall htk
  by_cases hv : v = ""
  · rw [if_pos hv]
    subst hv
    exact tokenize_startTag_gen n0 ns '>' _ _ [] _ hall (by decide)
      (parseAttrs_gt _) hend
  · rw [if_neg hv]
    have hd : ∃ c0 cs, v.data = c0 :: cs := by
      cases hvd : v.data with
      | nil => exact absurd (string_eq_of_data v "" (by simp [hvd])) hv
      | cons c0 cs => exact ⟨c0, cs, rfl⟩
    obtain ⟨c0, cs, hd⟩ := hd
    obtain ⟨d, ds, hesc, hdne⟩ := escChar_head c0
    have hflat : (v.data.map escChar).flatten
        = d :: (ds ++ (cs.map escChar).flatten) := by
      rw [hd]
      simp [hesc]
    have hst : scanText ((v.data.map escChar).flatten
        ++ '<' :: '/' :: (n0 :: ns ++ '>' :: X))
        = .ok (v.data.map cleanChar, '<' :: '/' :: (n0 :: ns ++ '>' :: X)) :=
      scanText_escape v.data _ (by simp)
    rw [hflat] at hst
    simp only [List.cons_append] at hst
    have hchar : tokenize ((v.data.map escChar).flatten
        ++ '<' :: '/' :: (n0 :: ns ++ '>' :: X))
        = .ok (.chardata (v.data.map cleanChar).asString
            :: (.endTag (n0 :: ns).asString :: toks)) := by
      rw [hflat]
      simp only [List.cons_append]
      exact tokenize_chardata_step d _ _ _ _ hdne hst hend
    exact tokenize_startTag_gen n0 ns '>' _ _ [] _ hall (by decide)
      (parseAttrs_gt _) hchar

/-- The tokens one optional field block (`omitempty` string field) of a
`<url>` element contributes. -/
def optBlockToks (tag : String) (v : String) : List XmlTok :=
  if v = "" then []
  else [.chardata "\n    ", .startTag tag [], .chardata (cleanse v), .endTag tag]

/-- The tokens one marshalled `<url>` element contributes. -/
def urlToks (u : URL) : List XmlTok :=
  .chardata "\n  " :: .startTag "url" [] :: .chardata "\n    " :: .startTag "loc" []
    :: ((if u.Loc = "" then [] else [.chardata (cleanse u.Loc)])
      ++ (.endTag "loc" :: (optBlockToks "lastmod" u.LastMod
        ++ (optBlockToks "changefreq" u.ChangeFreq
          ++ (optBlockToks "priority" u.Priority
            ++ [.chardata "\n  ", .endTag "url"])))))

theorem ite_append (P : Prop) [Decidable P] (b r : List Char) :
    (if P then [] else b) ++ r = if P then r else b ++ r := by
  by_cases h : P <;> simp [h]

theorem tokenize_optBlock (t0 : Char) (ts : List Char) (v : String) (X : List Char)
    (toks : List XmlTok)
    (hall : ∀ c ∈ t0 :: ts, isNameChar c = true)
    (htk : tokenize X = .ok toks) :
    tokenize (if v = "" then X
      else '\n' :: ' ' :: ' ' :: ' ' :: ' ' :: '<' :: t0
        :: (ts ++ '>' :: ((v.data.map escChar).flatten
          ++ '<' :: '/' :: (t0 :: ts ++ '>' :: X))))
      = .ok (optBlockToks (t0 :: ts).asString v ++ toks) := by
  by_cases hv : v = ""
  · rw [if_pos hv, optBlockToks, if_pos hv]
    simpa using htk
  · rw [if_neg hv]
    have helem := tokenize_textElem t0 ts v X toks hall htk
    rw [if_neg hv] at helem
    have hst : scanText ((['\n', ' ', ' ', ' ', ' '] : List Char)
        ++ '<' :: t0 :: (ts ++ '>' :: ((v.data.map escChar).flatten
          ++ '<' :: '/' :: (t0 :: ts ++ '>' :: X))))
        = .ok (['\n', ' ', ' ', ' ', ' '],
            '<' :: t0 :: (ts ++ '>' :: ((v.data.map escChar).flatten
              ++ '<' :: '/' :: (t0 :: ts ++ '>' :: X)))) :=
      scanText_plain _ _ (by decide) (by simp)
    simp only [List.cons_append, List.nil_append] at hst
    have hmain := tokenize_chardata_step '\n'
      (' ' :: ' ' :: ' ' :: ' ' :: '<' :: t0 :: (ts ++ '>'
        :: ((v.data.map escChar).flatten ++ '<' :: '/' :: (t0 :: ts ++ '>' :: X))))
      _ _ _ (by decide) hst helem
    rw [optBlockToks, if_neg hv]
    simpa using hmain

theorem tokenize_lastmodBlock (v : String) (X : List Char) (toks : List XmlTok)
    (htk : tokenize X = .ok toks) :
    tokenize (if v = "" then X
      else "\n    <lastmod>".data ++ ((escapeStr v).data ++ ("</lastmod>".data ++ X)))
      = .ok (optBlockToks "lastmod" v ++ toks) :=
  tokenize_optBlock 'l' ['a', 's', 't', 'm', 'o', 'd'] v X toks (by decide) htk

theorem tokenize_changefreqBlock (v : String) (X : List Char) (toks : List XmlTok)
    (htk : tokenize X = .ok toks) :
    tokenize (if v = "" then X
      else "\n    <changefreq>".data
        ++ ((escapeStr v).data ++ ("</changefreq>".data ++ X)))
      = .ok (optBlockToks "changefreq" v ++ toks) :=
  tokenize_optBlock 'c' ['h', 'a', 'n', 'g', 'e', 'f', 'r', 'e', 'q'] v X toks
    (by decide) htk

theorem tokenize_priorityBlock (v : String) (X : List Char) (toks : List XmlTok)
    (htk : tokenize X = .ok toks) :
    tokenize (if v = "" then X
      else "\n    <priority>".data ++ ((escapeStr v).data ++ ("</priority>".data ++ X)))
      = .ok (optBlockToks "priority" v ++ toks) :=
  tokenize_optBlock 'p' ['r', 'i', 'o', 'r', 'i', 't', 'y'] v X toks (by decide) htk

theorem tokenize_closeUrl (X : List Char) (toks : List XmlTok)
    (htk : tokenize X = .ok toks) :
    tokenize ("\n  </url>".data ++ X)
      = .ok (.chardata "\n  " :: .endTag "url" :: toks) := by
  have hend := tokenize_endTag_step 'u' ['r', 'l'] X toks (by decide) htk
  have hst : scanText ((['\n', ' ', ' '] : List Char)
      ++ '<' :: '/' :: ('u' :: ['r', 'l'] ++ '>' :: X))
      = .ok (['\n', ' ', ' '], '<' :: '/' :: ('u' :: ['r', 'l'] ++ '>' :: X)) :=
    scanText_plain _ _ (by decide) (by simp)
  simp only [List.cons_append, List.nil_append] at hst
  exact tokenize_chardata_step '\n'
    (' ' :: ' ' :: '<' :: '/' :: ('u' :: ['r', 'l'] ++ '>' :: X)) _ _ _
    (by decide) hst hend

theorem tokenize_locOpen (v : String) (X : List Char) (toks : List XmlTok)
    (htk : tokenize X = .ok toks) :
    tokenize ('\n' :: ' ' :: ' ' :: ' ' :: ' ' :: '<' :: 'l'
        :: (['o', 'c'] ++ '>' :: ((v.data.map escChar).flatten
          ++ '<' :: '/' :: ('l' :: ['o', 'c'] ++ '>' :: X))))
      = .ok (.chardata "\n    " :: .startTag "loc" []
          :: ((if v = "" then [] else [.chardata (cleanse v)])
            ++ (.endTag "loc" :: toks))) := by
  have helem := tokenize_textElem 'l' ['o', 'c'] v X toks (by decide) htk
  have hst := scanText_plain ['\n', ' ', ' ', ' ', ' ']
    ('<' :: 'l' :: (['o', 'c'] ++ '>' :: ((v.data.map escChar).flatten
      ++ '<' :: '/' :: ('l' :: ['o', 'c'] ++ '>' :: X)))) (by decide) (by simp)
  simp only [List.cons_append, List.nil_append] at hst
  exact tokenize_chardata_step '\n' _ _ _ _ (by decide) hst helem

theorem tokenize_urlOpen (X : List Char) (toks : List XmlTok)
    (htk : tokenize X = .ok toks) :
    tokenize ('\n' :: ' ' :: ' ' :: '<' :: 'u' :: (['r', 'l'] ++ '>' :: X))
      = .ok (.chardata "\n  " :: .startTag "url" [] :: toks) := by
  have hopen := tokenize_startTag_gen 'u' ['r', 'l'] '>' X X [] toks (by decide)
    (by decide) (parseAttrs_gt X) htk
  have hst := scanText_plain ['\n', ' ', ' ']
    ('<' :: 'u' :: (['r', 'l'] ++ '>' :: X)) (by decide) (by simp)
  simp only [List.cons_append, List.nil_append] at hst
  exact tokenize_chardata_step '\n' _ _ _ _ (by decide) hst hopen

theorem tokenize_url (u : URL) (X : List Char) (toks : List XmlTok)
    (htk : tokenize X = .ok toks) :
    tokenize ((marshalURL u).data ++ X) = .ok (urlToks u ++ toks) := by
  have hclose := tokenize_closeUrl X toks htk
  have hpr := tokenize_priorityBlock u.Priority ("\n  </url>".data ++ X) _ hclose
  have hcf := tokenize_changefreqBlock u.ChangeFreq _ _ hpr
  have hlm := tokenize_lastmodBlock u.LastMod _ _ hcf
  have hloc := tokenize_locOpen u.Loc _ _ hlm
  have hfull := tokenize_urlOpen _ _ hloc
  refine (congrArg tokenize ?harg).trans (hfull.trans ?htoks)
  case harg =>
    by_cases h1 : u.LastMod = "" <;> by_cases h2 : u.ChangeFreq = ""
      <;> by_cases h3 : u.Priority = ""
      <;> simp only [marshalURL, h1, h2, h3, data_append, List.append_assoc,
        if_true, if_false]
      <;> rfl
  case htoks =>
    simp [urlToks, List.append_assoc]

theorem tokenize_urls (l : List URL) (X : List Char) (toks : List XmlTok)
    (htk : tokenize X = .ok toks) :
    tokenize ((String.join (l.map marshalURL)).data ++ X)
      = .ok ((l.map urlToks).flatten ++ toks) := by
  induction l generalizing X toks with
  | nil => exact htk
  | cons u us ih =>
    refine (congrArg tokenize ?h2).trans ((tokenize_url u _ _ (ih X toks htk)).trans ?h3)
    case h2 => simp [stringJoin_cons_data, List.append_assoc]
    case h3 => simp [List.append_assoc]

theorem parseAttrs_urlset (A B : String) (X : List Char) :
    parseAttrs (' ' :: 'x' :: (['m', 'l', 'n', 's'] ++ '=' :: dquote
      :: ((A.data.map escChar).flatten ++ dquote :: (' ' :: 'x'
        :: (['m', 'l', 'n', 's', ':', 'x', 'h', 't', 'm', 'l'] ++ '=' :: dquote
          :: ((B.data.map escChar).flatten ++ dquote :: ('>' :: X)))))))
      = .ok ([("xmlns", cleanse A), ("xmlns:xhtml", cleanse B)], false, X) := by
  rw [parseAttrs_space _ _ (by decide)]
  have h2 := parseAttrs_attr_step 'x' ['m', 'l', 'n', 's', ':', 'x', 'h', 't', 'm', 'l']
    B ('>' :: X) [] false X (by decide) (parseAttrs_gt X)
  have h3 : parseAttrs (' ' :: 'x'
      :: (['m', 'l', 'n', 's', ':', 'x', 'h', 't', 'm', 'l'] ++ '=' :: dquote
        :: ((B.data.map escChar).flatten ++ dquote :: ('>' :: X))))
      = .ok ([("xmlns:xhtml", cleanse B)], false, X) :=
    (parseAttrs_space _ _ (by decide)).trans h2
  exact parseAttrs_attr_step 'x' ['m', 'l', 'n', 's'] A _ _ false X (by decide) h3

theorem tokenize_doc (us : URLSet) :
    tokenize (xmlHeader ++ marshalURLSet us).data
      = .ok (.chardata "\n" :: .startTag "urlset"
          [("xmlns", cleanse us.XMLNS), ("xmlns:xhtml", cleanse us.XHTML)]
          :: ((us.URLs.map urlToks).flatten
            ++ ((if us.URLs = [] then [] else [.chardata "\n"])
              ++ [.endTag "urlset"]))) := by
  have hend : tokenize ('<' :: '/' :: ('u' :: ['r', 'l', 's', 'e', 't']
      ++ '>' :: ([] : List Char))) = .ok [.endTag "urlset"] :=
    tokenize_endTag_step 'u' ['r', 'l', 's', 'e', 't'] [] [] (by decide) tokenize_nil
  have htrail : tokenize ((if us.URLs = [] then [] else ['\n'])
      ++ '<' :: '/' :: ('u' :: ['r', 'l', 's', 'e', 't'] ++ '>' :: []))
      = .ok ((if us.URLs = [] then [] else [.chardata "\n"]) ++ [.endTag "urlset"]) := by
    by_cases hz : us.URLs = []
    · simp only [if_pos hz, List.nil_append]
      exact hend
    · simp only [if_neg hz, List.cons_append, List.nil_append]
      exact tokenize_chardata_step '\n' _ _ _ _ (by decide)
        (scanText_plain ['\n'] _ (by decide) (by simp)) hend
  have hurls := tokenize_urls us.URLs _ _ htrail
  have hroot := tokenize_startTag_gen 'u' ['r', 'l', 's', 'e', 't'] ' ' _ _ _ _
    (by decide) (by decide) (parseAttrs_urlset us.XMLNS us.XHTML _) hurls
  have hnl := tokenize_chardata_step '\n' _ _ _ _ (by decide)
    (scanText_plain ['\n'] _ (by decide) (by simp)) hroot
  refine (congrArg tokenize ?hconv).trans ((tokenize_pi _).trans hnl)
  case hconv =>
    by_cases hz : us.URLs = []
      <;> simp only [marshalURLSet, hz, data_append, List.append_assoc,
        if_true, if_false]
      <;> rfl

theorem append_empty_str (s : String) : s ++ "" = s :=
  string_eq_of_data _ _ (by simp [data_append])

/-- `cleanChar` applied to each field: the net effect of one marshal /
unmarshal round trip on a `URL` entry. -/
def cleanseURL (u : URL) : URL :=
  { Loc := cleanse u.Loc, LastMod := cleanse u.LastMod,
    ChangeFreq := cleanse u.ChangeFreq, Priority := cleanse u.Priority }

theorem readTextTok_text (v : String) (tag : String) (ts : List XmlTok) :
    readTextTok ((if v = "" then [] else [XmlTok.chardata (cleanse v)])
      ++ (XmlTok.endTag tag :: ts)) = some (cleanse v, ts) := by
  by_cases hv : v = ""
  · rw [if_pos hv, hv]
    simp only [List.nil_append]
    rw [readTextTok]
    rfl
  · rw [if_neg hv]
    simp only [List.cons_append, List.nil_append]
    rw [readTextTok, readTextTok]
    dsimp only []
    rw [append_empty_str]

theorem decodeURLFields_lastmod (u0 : URL) (v : String) (ts : List XmlTok)
    (h0 : u0.LastMod = "") :
    decodeURLFields u0 (optBlockToks "lastmod" v ++ ts)
      = decodeURLFields { u0 with LastMod := cleanse v } ts := by
  by_cases hv : v = ""
  · rw [optBlockToks, if_pos hv, hv]
    simp only [List.nil_append]
    have he : { u0 with LastMod := cleanse "" } = u0 := by
      cases u0
      simp_all [cleanse_empty]
    rw [he]
  · rw [optBlockToks, if_neg hv]
    simp only [List.cons_append, List.nil_append]
    rw [decodeURLFields, decodeURLFields]
    rw [if_neg (by decide), if_pos rfl]
    have hrt : readTextTok (XmlTok.chardata (cleanse v) :: XmlTok.endTag "lastmod" :: ts)
        = some (cleanse v, ts) := by
      rw [readTextTok, readTextTok]
      dsimp only []
      rw [append_empty_str]
    rw [hrt]

theorem decodeURLFields_changefreq (u0 : URL) (v : String) (ts : List XmlTok)
    (h0 : u0.ChangeFreq = "") :
    decodeURLFields u0 (optBlockToks "changefreq" v ++ ts)
      = decodeURLFields { u0 with ChangeFreq := cleanse v } ts := by
  by_cases hv : v = ""
  · rw [optBlockToks, if_pos hv, hv]
    simp only [List.nil_append]
    have he : { u0 with ChangeFreq := cleanse "" } = u0 := by
      cases u0
      simp_all [cleanse_empty]
    rw [he]
  · rw [optBlockToks, if_neg hv]
    simp only [List.cons_append, List.nil_append]
    rw [decodeURLFields, decodeURLFields]
    rw [if_neg (by decide), if_neg (by decide), if_pos rfl]
    have hrt : readTextTok (XmlTok.chardata (cleanse v)
        :: XmlTok.endTag "changefreq" :: ts) = some (cleanse v, ts) := by
      rw [readTextTok, readTextTok]
      dsimp only []
      rw [append_empty_str]
    rw [hrt]

theorem decodeURLFields_priority (u0 : URL) (v : String) (ts : List XmlTok)
    (h0 : u0.Priority = "") :
    decodeURLFields u0 (optBlockToks "priority" v ++ ts)
      = decodeURLFields { u0 with Priority := cleanse v } ts := by
  by_cases hv : v = ""
  · rw [optBlockToks, if_pos hv, hv]
    simp only [List.nil_append]
    have he : { u0 with Priority := cleanse "" } = u0 := by
      cases u0
      simp_all [cleanse_empty]
    rw [he]
  · rw [optBlockToks, if_neg hv]
    simp only [List.cons_append, List.nil_append]
    rw [decodeURLFields, decodeURLFields]
    rw [if_neg (by decide), if_neg (by decide), if_neg (by decide), if_pos rfl]
    have hrt : readTextTok (XmlTok.chardata (cleanse v)
        :: XmlTok.endTag "priority" :: ts) = some (cleanse v, ts) := by
      rw [readTextTok, readTextTok]
      dsimp only []
      rw [append_empty_str]
    rw [hrt]

theorem decodeURLFields_close (u0 : URL) (ts : List XmlTok) :
    decodeURLFields u0 (XmlTok.chardata "\n  " :: XmlTok.endTag "url" :: ts)
      = some (u0, ts) := by
  rw [decodeURLFields, decodeURLFields]

theorem decode_urlBody (u : URL) (ts : List XmlTok) :
    decodeURLFields { Loc := "", LastMod := "", ChangeFreq := "", Priority := "" }
      (XmlTok.chardata "\n    " :: XmlTok.startTag "loc" []
        :: ((if u.Loc = "" then [] else [XmlTok.chardata (cleanse u.Loc)])
          ++ (XmlTok.endTag "loc" :: (optBlockToks "lastmod" u.LastMod
            ++ (optBlockToks "changefreq" u.ChangeFreq
              ++ (optBlockToks "priority" u.Priority
                ++ (XmlTok.chardata "\n  " :: XmlTok.endTag "url" :: ts)))))))
      = some (cleanseURL u, ts) := by
  rw [decodeURLFields, decodeURLFields]
  rw [if_pos rfl]
  rw [readTextTok_text u.Loc "loc" _]
  dsimp only []
  rw [decodeURLFields_lastmod _ _ _ rfl]
  rw [decodeURLFields_changefreq _ _ _ rfl]
  rw [decodeURLFields_priority _ _ _ rfl]
  rw [decodeURLFields_close]
  rfl

theorem decodeURLs_url (u : URL) (acc : List URL) (ts : List XmlTok) :
    decodeURLs acc (urlToks u ++ ts) = decodeURLs (cleanseURL u :: acc) ts := by
  rw [urlToks]
  simp only [List.cons_append, List.append_assoc, List.nil_append]
  rw [decodeURLs, decodeURLs]
  rw [if_pos rfl]
  rw [decode_urlBody]

theorem decodeURLs_flatten (l : List URL) (acc : List URL) (ts : List XmlTok) :
    decodeURLs acc ((l.map urlToks).flatten ++ ts)
      = decodeURLs ((l.map cleanseURL).reverse ++ acc) ts := by
  induction l generalizing acc with
  | nil => simp
  | cons u us ih =>
    simp only [List.map_cons, List.flatten_cons, List.append_assoc]
    rw [decodeURLs_url, ih]
    congr 1
    simp

theorem decodeURLs_trailer (acc : List URL) (P : Prop) [Decidable P] :
    decodeURLs acc ((if P then [] else [XmlTok.chardata "\n"])
      ++ [XmlTok.endTag "urlset"]) = some (acc.reverse, []) := by
  by_cases hz : P
  · rw [if_pos hz]
    simp only [List.nil_append]
    rw [decodeURLs]
  · rw [if_neg hz]
    simp only [List.cons_append, List.nil_append]
    rw [decodeURLs, decodeURLs]

/-- Marshalling a `URLSet` and unmarshalling the bytes back always succeeds,
and yields the document with every character of every field cleansed: kept
when XML-legal, replaced by U+FFFD otherwise. -/
theorem marshal_unmarshal (us : URLSet) :
    unmarshalURLSet (xmlHeader ++ marshalURLSet us)
      = .ok { XMLNS := cleanse us.XMLNS, XHTML := cleanse us.XHTML,
              URLs := us.URLs.map cleanseURL } := by
  unfold unmarshalURLSet
  rw [tokenize_doc us]
  dsimp only [dropLeadingMisc]
  rw [if_pos rfl]
  rw [decodeURLs_flatten us.URLs [] _]
  rw [decodeURLs_trailer]
  dsimp only []
  simp only [List.append_nil, List.reverse_reverse]
  rfl

theorem map_eq_self_of_id {α : Type} (f : α → α) (l : List α)
    (h : ∀ x ∈ l, f x = x) : l.map f = l := by
  induction l with
  | nil => rfl
  | cons x xs ih =>
    simp only [List.map_cons]
    rw [h x (by simp), ih (fun y hy => h y (by simp [hy]))]

theorem cleanse_id (s : String) (h : ∀ c ∈ s.data, isInCharacterRange c = true) :
    cleanse s = s := by
  apply string_eq_of_data
  rw [cleanse, asString_data]
  exact map_eq_self_of_id cleanChar s.data
    (fun c hc => by rw [cleanChar, if_pos (h c hc)])

/-- A concrete URL-set document whose fields are all XML-representable. -/
def rtDemo : URLSet :=
  { XMLNS := "http://www.sitemaps.org/schemas/sitemap/0.9",
    XHTML := "http://www.w3.org/1999/xhtml",
    URLs := [{ Loc := "https://example.com/page-1", LastMod := "2024-01-15",
               ChangeFreq := "daily", Priority := "0.8" }] }

/-- A URL-set document with an XML-illegal character (NUL) in a `Loc`. -/
def rtBad : URLSet :=
  { XMLNS := "http://www.sitemaps.org/schemas/sitemap/0.9",
    XHTML := "http://www.w3.org/1999/xhtml",
    URLs := [{ Loc := (Char.ofNat 0).toString, LastMod := "", ChangeFreq := "",
               Priority := "" }] }

/-- C7 (amended): for a URL-set document whose fields contain only
XML-representable characters, serializing (`xml.Header` + `MarshalIndent`)
and re-parsing (`xml.Unmarshal`) yields exactly the same ordered sequence of
URL entries, omitted-when-empty fields included. -/
theorem serialize_roundtrip_spec (us : URLSet)
    (h : ∀ u ∈ us.URLs, (∀ c ∈ u.Loc.data, isInCharacterRange c = true)
      ∧ (∀ c ∈ u.LastMod.data, isInCharacterRange c = true)
      ∧ (∀ c ∈ u.ChangeFreq.data, isInCharacterRange c = true)
      ∧ (∀ c ∈ u.Priority.data, isInCharacterRange c = true)) :
    ∃ parsed, unmarshalURLSet (xmlHeader ++ marshalURLSet us) = .ok parsed
      ∧ parsed.URLs = us.URLs := by
  refine ⟨_, marshal_unmarshal us, ?_⟩
  show us.URLs.map cleanseURL = us.URLs
  refine map_eq_self_of_id cleanseURL us.URLs (fun u hu => ?_)
  obtain ⟨h1, h2, h3, h4⟩ := h u hu
  rw [cleanseURL, cleanse_id _ h1, cleanse_id _ h2, cleanse_id _ h3, cleanse_id _ h4]

/-- C7 witness: the amended round-trip theorem applied to a concrete one-entry
document with all four fields set. -/
theorem serialize_roundtrip_spec_witness :
    ∃ parsed, unmarshalURLSet (xmlHeader ++ marshalURLSet rtDemo) = .ok parsed
      ∧ parsed.URLs = rtDemo.URLs :=
  serialize_roundtrip_spec rtDemo (by decide)

/-- C7 as frozen is refuted: a URL entry whose `Loc` is the NUL character
serializes (`EscapeText` replaces XML-illegal characters with U+FFFD) and
re-parses to a different entry, so the round trip is not the identity on
every URL-set document. -/
theorem serialize_roundtrip_counterexample :
    unmarshalURLSet (xmlHeader ++ marshalURLSet rtBad)
      = .ok { XMLNS := "http://www.sitemaps.org/schemas/sitemap/0.9",
              XHTML := "http://www.w3.org/1999/xhtml",
              URLs := [{ Loc := replChar.toString, LastMod := "", ChangeFreq := "",
                         Priority := "" }] }
    ∧ ¬ replChar.toString = (Char.ofNat 0).toString := by
  constructor
  · rw [marshal_unmarshal]
    exact congrArg Except.ok (by decide)
  · decide


/-! ## The `Split` operation (`splitter.go` lines 66-182)

Effects are modelled explicitly: the source file content is an
`Option String` (`none` = read failure), each `os.WriteFile` outcome is
given by `writeOk` on the target path, the writes actually performed are
collected in order, and `now` stands for the formatted current time
`time.Now().Format(time.RFC3339)`. -/

/-- The error classes `Split` and `NewSitemapSplitter` can produce. -/
inductive SplitError where
  | readError
  | parseError (msg : String)
  | emptyDocument
  | urlParseError (msg : String)
  | writeError (path : String)
deriving DecidableEq, Repr

/-- The per-chunk record appended to `sitemapFiles` (the anonymous struct
with fields `BaseURL`, `Name`, `LastModDate`). -/
structure SitemapFileInfo where
  BaseURL : String
  Name : String
  LastModDate : String
deriving DecidableEq, Repr

/-- Line 114: `fmt.Sprintf("%s-%d.xml", baseFilename, i+1)`. -/
def sitemapName (baseFilename : String) (i : Nat) : String :=
  baseFilename ++ "-" ++ toString (i + 1) ++ ".xml"

/-- Line 122: `fmt.Sprintf("%s://%s/", parsedURL.Scheme, parsedURL.Host)`. -/
def baseURLOf (g : GoURL) : String :=
  g.Scheme ++ "://" ++ g.Host ++ "/"

/-- Lines 125-128: the chunk's last-modified value, with the wall-clock
fallback. -/
def deriveLastMod (lastURL : URL) (now : String) : String :=
  if lastURL.LastMod = "" then now else lastURL.LastMod

/-- The fixed namespaces (lines 108-109, 157). -/
def sitemapNS : String := "http://www.sitemaps.org/schemas/sitemap/0.9"

/-- The xhtml namespace attribute value. -/
def xhtmlNS : String := "http://www.w3.org/1999/xhtml"

/-- Result of the per-chunk loop: the accumulated `sitemapFiles`, the writes
performed (path, bytes) in order, and the error that stopped the loop, if
any. -/
structure LoopOut where
  files : List SitemapFileInfo
  writes : List (String × String)
  error : Option SplitError
deriving DecidableEq, Repr

/-- The body of the chunk loop (lines 94-153) from iteration `i` on. -/
def splitLoop (urls : List URL) (limit : Nat) (dir baseFilename now : String)
    (writeOk : String → Bool) (i : Nat) : LoopOut :=
  if h : i * limit < urls.length then
    if hc : (urls.drop (i * limit)).take (min ((i + 1) * limit) urls.length - i * limit) = []
    then { files := [], writes := [], error := none }
    else
      let chunk := (urls.drop (i * limit)).take (min ((i + 1) * limit) urls.length - i * limit)
      let newURLSet : URLSet := { XMLNS := sitemapNS, XHTML := xhtmlNS, URLs := chunk }
      let name := sitemapName baseFilename i
      let lastURL := chunk.getLast hc
      match urlParse lastURL.Loc with
      | .error e => { files := [], writes := [], error := some (.urlParseError e) }
      | .ok parsedURL =>
        let file : SitemapFileInfo :=
          { BaseURL := baseURLOf parsedURL
            Name := name
            LastModDate := deriveLastMod lastURL now }
        let xmlData := xmlHeader ++ marshalURLSet newURLSet
        let outputPath := filepathJoin dir name
        if writeOk outputPath then
          let rest := splitLoop urls limit dir baseFilename now writeOk (i + 1)
          { files := file :: rest.files
            writes := (outputPath, xmlData) :: rest.writes
            error := rest.error }
        else
          { files := [file], writes := [], error := some (.writeError outputPath) }
  else { files := [], writes := [], error := none }
  termination_by urls.length - i * limit
  decreasing_by
    have h1 : 0 < ((urls.drop (i * limit)).take
        (min ((i + 1) * limit) urls.length - i * limit)).length :=
      List.length_pos.mpr hc
    rw [List.length_take, List.length_drop] at h1
    have h2 : (i + 1) * limit = i * limit + limit := Nat.succ_mul i limit
    omega

/-- Lines 156-165: the index document assembled from `sitemapFiles`. -/
def buildIndex (files : List SitemapFileInfo) : SitemapIndex :=
  { XMLNS := sitemapNS
    Sitemaps := files.map (fun f => { Loc := f.BaseURL ++ f.Name, LastMod := f.LastModDate }) }

/-- The outcome of one `Split` call: the writes performed, in order, and the
returned error (`none` = success). -/
structure SplitResult where
  writes : List (String × String)
  error : Option SplitError
deriving DecidableEq, Repr

/-- Lines 84-85: `filename[:len(filename)-len(filepath.Ext(filename))]`,
the source filename with its extension stripped. -/
def baseFilenameOf (path : String) : String :=
  ((filepathBase path).data.take
    ((filepathBase path).data.length - (filepathExt (filepathBase path)).data.length)).asString

/-- `Split` with the limit already converted to `Nat` (the constructor
guarantees `limit ≥ 1`, so the conversion is lossless for every reachable
configuration). -/
def splitGo (path : String) (limit : Nat) (content : Option String) (now : String)
    (writeOk : String → Bool) : SplitResult :=
  match content with
  | none => { writes := [], error := some .readError }
  | some data =>
    match unmarshalURLSet data with
    | .error e => { writes := [], error := some (.parseError e) }
    | .ok urlset =>
      if urlset.URLs = [] then { writes := [], error := some .emptyDocument }
      else
        let dir := filepathDir path
        let baseFilename := baseFilenameOf path
        let lo := splitLoop urlset.URLs limit dir baseFilename now writeOk 0
        match lo.error with
        | some e => { writes := lo.writes, error := some e }
        | none =>
          let sitemapIndex := buildIndex lo.files
          let xmlData := xmlHeader ++ marshalSitemapIndex sitemapIndex
          let indexPath := filepathJoin dir "sitemap-index.xml"
          if writeOk indexPath then
            { writes := lo.writes ++ [(indexPath, xmlData)], error := none }
          else
            { writes := lo.writes, error := some (.writeError indexPath) }

/-- The `Split` method on a configuration value. -/
def Split (s : SitemapSplitter) (content : Option String) (now : String)
    (writeOk : String → Bool) : SplitResult :=
  splitGo s.path s.limit.toNat content now writeOk

/-- The chunk loop re-expressed over an explicit chunk list: processing chunk
`c` at position `i` performs exactly the steps of the loop body. -/
def loopOn (dir baseFilename now : String) (writeOk : String → Bool) :
    List (List URL) → Nat → LoopOut
  | [], _ => { files := [], writes := [], error := none }
  | c :: cs, i =>
    if hc : c = [] then { files := [], writes := [], error := none }
    else
      let name := sitemapName baseFilename i
      let lastURL := c.getLast hc
      match urlParse lastURL.Loc with
      | .error e => { files := [], writes := [], error := some (.urlParseError e) }
      | .ok parsedURL =>
        let file : SitemapFileInfo :=
          { BaseURL := baseURLOf parsedURL
            Name := name
            LastModDate := deriveLastMod lastURL now }
        let xmlData := xmlHeader ++ marshalURLSet { XMLNS := sitemapNS, XHTML := xhtmlNS, URLs := c }
        let outputPath := filepathJoin dir name
        if writeOk outputPath then
          let rest := loopOn dir baseFilename now writeOk cs (i + 1)
          { files := file :: rest.files
            writes := (outputPath, xmlData) :: rest.writes
            error := rest.error }
        else
          { files := [file], writes := [], error := some (.writeError outputPath) }

theorem splitLoop_eq_loopOn (urls : List URL) (limit : Nat)
    (dir b now : String) (w : String → Bool) (i : Nat) :
    splitLoop urls limit dir b now w i
      = loopOn dir b now w (splitChunksAux urls limit i) i := by
  generalize hn : urls.length - i * limit = n
  induction n using Nat.strong_induction_on generalizing i with
  | _ n ih =>
    rw [splitLoop, splitChunksAux]
    by_cases h : i * limit < urls.length
    · rw [dif_pos h, dif_pos h]
      by_cases hne : (urls.drop (i * limit)).take
          (min ((i + 1) * limit) urls.length - i * limit) = []
      · rw [dif_pos hne, dif_pos hne]
        rw [loopOn]
      · rw [dif_neg hne, dif_neg hne]
        rw [loopOn]
        rw [dif_neg hne]
        dsimp only []
        have hsm : (i + 1) * limit = i * limit + limit := Nat.succ_mul i limit
        have hlim : 0 < limit := by
          by_contra hz
          apply hne
          have : limit = 0 := by omega
          subst this
          have : min ((i + 1) * 0) urls.length - i * 0 = 0 := by
            simp
          rw [this, List.take_zero]
        have hrec := ih (urls.length - (i + 1) * limit) (by omega) (i + 1) rfl
        cases hu : urlParse (((urls.drop (i * limit)).take
            (min ((i + 1) * limit) urls.length - i * limit)).getLast hne).Loc with
        | error e => rfl
        | ok g =>
          dsimp only []
          by_cases hw : w (filepathJoin dir (sitemapName b i)) = true
          · rw [if_pos hw, if_pos hw, hrec]
          · rw [if_neg hw, if_neg hw]
    · rw [dif_neg h, dif_neg h]
      rw [loopOn]

/-- The all-fields-empty `URL` (Go zero value). -/
def zeroURL : URL := { Loc := "", LastMod := "", ChangeFreq := "", Priority := "" }

/-- `chunk[len(chunk)-1]` as a total function. -/
def lastOf (c : List URL) : URL := c.getLastD zeroURL

theorem lastOf_eq_getLast (c : List URL) (hc : c ≠ []) : lastOf c = c.getLast hc := by
  unfold lastOf
  rw [List.getLastD_eq_getLast?, List.getLast?_eq_getLast c hc]
  rfl

/-- The serialized bytes of one chunk file. -/
def chunkBytes (c : List URL) : String :=
  xmlHeader ++ marshalURLSet { XMLNS := sitemapNS, XHTML := xhtmlNS, URLs := c }

theorem loopOn_cons (dir b now : String) (w : String → Bool) (c : List URL)
    (cs : List (List URL)) (i : Nat) (hc : c ≠ []) :
    loopOn dir b now w (c :: cs) i =
      match urlParse (lastOf c).Loc with
      | .error e => { files := [], writes := [], error := some (.urlParseError e) }
      | .ok g =>
        if w (filepathJoin dir (sitemapName b i)) then
          { files := { BaseURL := baseURLOf g, Name := sitemapName b i,
                       LastModDate := deriveLastMod (lastOf c) now }
              :: (loopOn dir b now w cs (i + 1)).files
            writes := (filepathJoin dir (sitemapName b i), chunkBytes c)
              :: (loopOn dir b now w cs (i + 1)).writes
            error := (loopOn dir b now w cs (i + 1)).error }
        else
          { files := [{ BaseURL := baseURLOf g, Name := sitemapName b i,
                        LastModDate := deriveLastMod (lastOf c) now }]
            writes := []
            error := some (.writeError (filepathJoin dir (sitemapName b i))) } := by
  rw [loopOn, dif_neg hc]
  rw [lastOf_eq_getLast c hc]
  rfl

/-- On a successful loop every chunk's representative location parsed, and the
files and writes are the per-chunk derivations, in order. -/
theorem loopOn_success (dir b now : String) (w : String → Bool) :
    ∀ (cs : List (List URL)) (i : Nat),
      (∀ c ∈ cs, c ≠ []) →
      (loopOn dir b now w cs i).error = none →
      (loopOn dir b now w cs i).files.length = cs.length ∧
      (loopOn dir b now w cs i).writes.length = cs.length ∧
      (∀ j, j < cs.length →
        ∃ c, cs[j]? = some c ∧ c ≠ [] ∧
          ∃ g, urlParse (lastOf c).Loc = .ok g ∧
            (loopOn dir b now w cs i).files[j]? = some
              { BaseURL := baseURLOf g, Name := sitemapName b (i + j),
                LastModDate := deriveLastMod (lastOf c) now } ∧
            (loopOn dir b now w cs i).writes[j]? = some
              (filepathJoin dir (sitemapName b (i + j)), chunkBytes c)) := by
  intro cs
  induction cs with
  | nil =>
    intro i hall hsucc
    refine ⟨rfl, rfl, ?_⟩
    intro j hj
    cases hj
  | cons c cs ih =>
    intro i hall hsucc
    have hc : c ≠ [] := hall c (by simp)
    rw [loopOn_cons dir b now w c cs i hc] at hsucc ⊢
    cases hu : urlParse (lastOf c).Loc with
    | error e =>
      rw [hu] at hsucc
      exact absurd hsucc (by simp)
    | ok g =>
      rw [hu] at hsucc
      dsimp only [] at hsucc ⊢
      by_cases hw : w (filepathJoin dir (sitemapName b i)) = true
      · rw [if_pos hw] at hsucc ⊢
        dsimp only [] at hsucc ⊢
        have hrest := ih (i + 1) (fun c2 hc2 => hall c2 (by simp [hc2])) hsucc
        refine ⟨by simp [hrest.1], by simp [hrest.2.1], ?_⟩
        intro j hj
        match j with
        | 0 =>
          refine ⟨c, by simp, hc, g, hu, ?_, ?_⟩ <;> simp
        | j' + 1 =>
          have hj' : j' < cs.length := by
            simp only [List.length_cons] at hj
            omega
          obtain ⟨c2, hcs, hc2, g2, hg2, hfile, hwrite⟩ := hrest.2.2 j' hj'
          refine ⟨c2, by simpa using hcs, hc2, g2, hg2, ?_, ?_⟩
          · have : i + 1 + j' = i + (j' + 1) := by omega
            rw [← this]
            simpa using hfile
          · have : i + 1 + j' = i + (j' + 1) := by omega
            rw [← this]
            simpa using hwrite
      · rw [if_neg hw] at hsucc
        cases hsucc

/-- The loop's writes do not depend on the clock, and neither does its
error nor the derived names and base URLs. -/
theorem loopOn_now_invariant (dir b : String) (w : String → Bool)
    (now1 now2 : String) :
    ∀ (cs : List (List URL)) (i : Nat),
      (loopOn dir b now1 w cs i).writes = (loopOn dir b now2 w cs i).writes ∧
      (loopOn dir b now1 w cs i).error = (loopOn dir b now2 w cs i).error ∧
      (loopOn dir b now1 w cs i).files.map (fun f => (f.BaseURL, f.Name))
        = (loopOn dir b now2 w cs i).files.map (fun f => (f.BaseURL, f.Name)) := by
  intro cs
  induction cs with
  | nil =>
    intro i
    exact ⟨rfl, rfl, rfl⟩
  | cons c cs ih =>
    intro i
    by_cases hc : c = []
    · subst hc
      rw [loopOn, dif_pos rfl, loopOn, dif_pos rfl]
      exact ⟨rfl, rfl, rfl⟩
    · rw [loopOn_cons dir b now1 w c cs i hc, loopOn_cons dir b now2 w c cs i hc]
      cases hu : urlParse (lastOf c).Loc with
      | error e => exact ⟨rfl, rfl, rfl⟩
      | ok g =>
        dsimp only []
        by_cases hw : w (filepathJoin dir (sitemapName b i)) = true
        · rw [if_pos hw, if_pos hw]
          obtain ⟨h1, h2, h3⟩ := ih (i + 1)
          exact ⟨by simp [h1], by simp [h2], by simp [h3]⟩
        · rw [if_neg hw, if_neg hw]
          exact ⟨rfl, rfl, rfl⟩

/-- A loop run that reported no error behaves exactly like the
all-writes-succeed run. -/
theorem loopOn_error_none_eq_ideal (dir b now : String) (w : String → Bool) :
    ∀ (cs : List (List URL)) (i : Nat),
      (loopOn dir b now w cs i).error = none →
      loopOn dir b now w cs i = loopOn dir b now (fun _ => true) cs i := by
  intro cs
  induction cs with
  | nil =>
    intro i _
    rfl
  | cons c cs ih =>
    intro i hsucc
    by_cases hc : c = []
    · subst hc
      rw [loopOn, dif_pos rfl, loopOn, dif_pos rfl]
    · rw [loopOn_cons dir b now w c cs i hc] at hsucc ⊢
      rw [loopOn_cons dir b now (fun _ => true) c cs i hc]
      cases hu : urlParse (lastOf c).Loc with
      | error e =>
        rw [hu] at hsucc
      | ok g =>
        rw [hu] at hsucc
        dsimp only [] at hsucc ⊢
        by_cases hw : w (filepathJoin dir (sitemapName b i)) = true
        · rw [if_pos hw] at hsucc ⊢
          rw [if_pos rfl]
          dsimp only [] at hsucc
          rw [ih (i + 1) hsucc]
        · rw [if_neg hw] at hsucc
          exact absurd hsucc (by simp)

/-- When every chunk's last entry carries a non-empty `lastmod`, the loop is
fully independent of the clock. -/
theorem loopOn_now_full (dir b : String) (w : String → Bool) (now1 now2 : String) :
    ∀ (cs : List (List URL)) (i : Nat),
      (∀ c ∈ cs, c ≠ [] → (lastOf c).LastMod ≠ "") →
      loopOn dir b now1 w cs i = loopOn dir b now2 w cs i := by
  intro cs
  induction cs with
  | nil => intro i _; rfl
  | cons c cs ih =>
    intro i hlm
    by_cases hc : c = []
    · subst hc
      rw [loopOn, dif_pos rfl, loopOn, dif_pos rfl]
    · rw [loopOn_cons dir b now1 w c cs i hc, loopOn_cons dir b now2 w c cs i hc]
      cases hu : urlParse (lastOf c).Loc with
      | error e => rfl
      | ok g =>
        dsimp only []
        have hmod : deriveLastMod (lastOf c) now1 = deriveLastMod (lastOf c) now2 := by
          unfold deriveLastMod
          rw [if_neg (hlm c (by simp) hc), if_neg (hlm c (by simp) hc)]
        rw [hmod, ih (i + 1) (fun c2 hc2 => hlm c2 (by simp [hc2]))]

/-- The writes of a run with an arbitrary write oracle form a prefix of the
writes of the all-writes-succeed run. -/
theorem loopOn_writes_of_ideal (dir b now : String) (w : String → Bool) :
    ∀ (cs : List (List URL)) (i : Nat),
      ∃ t, (loopOn dir b now (fun _ => true) cs i).writes
          = (loopOn dir b now w cs i).writes ++ t := by
  intro cs
  induction cs with
  | nil =>
    intro i
    exact ⟨[], rfl⟩
  | cons c cs ih =>
    intro i
    by_cases hc : c = []
    · subst hc
      rw [loopOn, dif_pos rfl, loopOn, dif_pos rfl]
      exact ⟨[], rfl⟩
    · rw [loopOn_cons dir b now (fun _ => true) c cs i hc, loopOn_cons dir b now w c cs i hc]
      cases hu : urlParse (lastOf c).Loc with
      | error e => exact ⟨[], rfl⟩
      | ok g =>
        dsimp only []
        rw [if_pos rfl]
        by_cases hw : w (filepathJoin dir (sitemapName b i)) = true
        · rw [if_pos hw]
          obtain ⟨t, ht⟩ := ih (i + 1)
          exact ⟨t, by simp [ht]⟩
        · rw [if_neg hw]
          exact ⟨(filepathJoin dir (sitemapName b i), chunkBytes c)
              :: (loopOn dir b now (fun _ => true) cs (i + 1)).writes, by simp⟩

/-- If some chunk's representative location is rejected by `url.Parse` and
all writes succeed, the loop stops with a `URLParseError`. -/
theorem loopOn_urlParseError (dir b now : String) :
    ∀ (cs : List (List URL)) (i : Nat),
      (∀ c ∈ cs, c ≠ []) →
      (∃ c ∈ cs, ∃ e, urlParse (lastOf c).Loc = .error e) →
      ∃ msg, (loopOn dir b now (fun _ => true) cs i).error
          = some (.urlParseError msg) := by
  intro cs
  induction cs with
  | nil =>
    intro i _ hbad
    obtain ⟨c, hc, _⟩ := hbad
    cases hc
  | cons c cs ih =>
    intro i hall hbad
    have hc : c ≠ [] := hall c (by simp)
    rw [loopOn_cons dir b now (fun _ => true) c cs i hc]
    cases hu : urlParse (lastOf c).Loc with
    | error e => exact ⟨e, rfl⟩
    | ok g =>
      dsimp only []
      rw [if_pos rfl]
      obtain ⟨c2, hc2, e2, he2⟩ := hbad
      rcases List.mem_cons.mp hc2 with rfl | hmem
      · rw [hu] at he2
        cases he2
      · exact ih (i + 1) (fun c3 hc3 => hall c3 (by simp [hc3])) ⟨c2, hmem, e2, he2⟩

/-- With all writes succeeding, the loop that meets its first unparseable
representative location at chunk `k` stops there: its write trace is exactly
the chunk files of the chunks before `k`, and its error is that parse
failure. -/
theorem loopOn_first_error (dir b now : String) :
    ∀ (cs : List (List URL)) (i k : Nat) (e : String),
      (∀ c ∈ cs, c ≠ []) →
      k < cs.length →
      urlParse (lastOf (cs.getD k [])).Loc = .error e →
      (∀ j, j < k → (urlParse (lastOf (cs.getD j [])).Loc).isOk = true) →
      (loopOn dir b now (fun _ => true) cs i).writes
          = (List.range k).map (fun j =>
              (filepathJoin dir (sitemapName b (i + j)), chunkBytes (cs.getD j [])))
        ∧ (loopOn dir b now (fun _ => true) cs i).error
          = some (.urlParseError e) := by
  intro cs
  induction cs with
  | nil =>
    intro i k e _ hk _ _
    exact absurd hk (by simp)
  | cons c cs ih =>
    intro i k e hall hk hbad hgood
    have hc : c ≠ [] := hall c (by simp)
    rw [loopOn_cons dir b now (fun _ => true) c cs i hc]
    cases k with
    | zero =>
      rw [show ((c :: cs).getD 0 []) = c from rfl] at hbad
      rw [hbad]
      exact ⟨rfl, rfl⟩
    | succ k2 =>
      have hg0 := hgood 0 (by omega)
      rw [show ((c :: cs).getD 0 []) = c from rfl] at hg0
      cases hu : urlParse (lastOf c).Loc with
      | error e2 =>
        rw [hu] at hg0
        have hf : (Except.error e2 : Except String GoURL).isOk = false := rfl
        rw [hf] at hg0
        exact absurd hg0 (by simp)
      | ok g =>
        dsimp only []
        rw [if_pos rfl]
        have hbad2 : urlParse (lastOf (cs.getD k2 [])).Loc = .error e := by
          simpa using hbad
        have hgood2 : ∀ j, j < k2 →
            (urlParse (lastOf (cs.getD j [])).Loc).isOk = true := by
          intro j hj
          have := hgood (j + 1) (by omega)
          simpa using this
        have hk2 : k2 < cs.length := by
          simp at hk
          omega
        obtain ⟨hw, he⟩ := ih (i + 1) k2 e (fun c2 h2 => hall c2 (by simp [h2]))
          hk2 hbad2 hgood2
        refine ⟨?_, he⟩
        dsimp only []
        have hfun : (fun j => (filepathJoin dir (sitemapName b (i + 1 + j)),
              chunkBytes (cs.getD j [])))
            = ((fun j => (filepathJoin dir (sitemapName b (i + j)),
                chunkBytes ((c :: cs).getD j []))) ∘ Nat.succ) := by
          funext j
          show _ = (filepathJoin dir (sitemapName b (i + (j + 1))),
            chunkBytes ((c :: cs).getD (j + 1) []))
          rw [show i + (j + 1) = i + 1 + j from by omega, List.getD_cons_succ]
        rw [hw, List.range_succ_eq_map]
        simp only [List.map_cons, List.map_map]
        rw [hfun]
        simp only [Nat.add_zero, List.getD_cons_zero]

/-- Unfolding of `splitGo` once the document has parsed to a non-empty URL
list. -/
theorem splitGo_parsed (path : String) (limit : Nat) (content now : String)
    (w : String → Bool) (urlset : URLSet)
    (hparse : unmarshalURLSet content = .ok urlset) (hne : urlset.URLs ≠ []) :
    splitGo path limit (some content) now w =
      match (splitLoop urlset.URLs limit (filepathDir path) (baseFilenameOf path)
          now w 0).error with
      | some e =>
        { writes := (splitLoop urlset.URLs limit (filepathDir path) (baseFilenameOf path)
              now w 0).writes
          error := some e }
      | none =>
        if w (filepathJoin (filepathDir path) "sitemap-index.xml") then
          { writes := (splitLoop urlset.URLs limit (filepathDir path) (baseFilenameOf path)
                now w 0).writes
              ++ [(filepathJoin (filepathDir path) "sitemap-index.xml",
                   xmlHeader ++ marshalSitemapIndex (buildIndex
                     (splitLoop urlset.URLs limit (filepathDir path) (baseFilenameOf path)
                       now w 0).files))]
            error := none }
        else
          { writes := (splitLoop urlset.URLs limit (filepathDir path) (baseFilenameOf path)
                now w 0).writes
            error := some (.writeError (filepathJoin (filepathDir path)
                "sitemap-index.xml")) } := by
  unfold splitGo
  dsimp only []
  rw [hparse]
  dsimp only []
  rw [if_neg hne]


/-- If every chunk is non-empty with a parseable representative location and
every write succeeds, the chunk loop finishes without error. -/
theorem loopOn_error_none_of (dir b now : String) :
    ∀ (cs : List (List URL)) (i : Nat),
      (∀ c ∈ cs, c ≠ [] ∧ (urlParse (lastOf c).Loc).isOk = true) →
      (loopOn dir b now (fun _ => true) cs i).error = none := by
  intro cs
  induction cs with
  | nil =>
    intro i _
    rfl
  | cons c cs ih =>
    intro i hall
    have hc := hall c (by simp)
    rw [loopOn_cons dir b now (fun _ => true) c cs i hc.1]
    cases hu : urlParse (lastOf c).Loc with
    | error e =>
      rw [hu] at hc
      have hf : (Except.error e : Except String GoURL).isOk = false := rfl
      rw [hf] at hc
      exact absurd hc.2 (by simp)
    | ok g =>
      dsimp only []
      rw [if_pos rfl]
      exact ih (i + 1) (fun c2 h2 => hall c2 (by simp [h2]))

/-- With all writes succeeding, a run whose chunk loop finishes without error
returns no error. -/
theorem splitGo_success_error (path : String) (limit : Nat) (content now : String)
    (urlset : URLSet)
    (hparse : unmarshalURLSet content = .ok urlset) (hne : urlset.URLs ≠ [])
    (hok : (splitLoop urlset.URLs limit (filepathDir path) (baseFilenameOf path)
        now (fun _ => true) 0).error = none) :
    (splitGo path limit (some content) now (fun _ => true)).error = none := by
  rw [splitGo_parsed path limit content now (fun _ => true) urlset hparse hne]
  rw [hok]
  dsimp only []
  rw [if_pos rfl]

/-! ## Claim theorems -/

/-- C3: a source document that parses successfully but contains zero URL
entries makes `Split` fail with the empty-document error, and the write trace
is empty: no chunk file and no index file is created on this path. -/
theorem split_empty_document (path : String) (limit : Nat) (content now : String)
    (writeOk : String → Bool) (us : URLSet)
    (hparse : unmarshalURLSet content = .ok us) (hempty : us.URLs = []) :
    splitGo path limit (some content) now writeOk
      = { writes := [], error := some .emptyDocument } := by
  unfold splitGo
  dsimp only []
  rw [hparse]
  dsimp only []
  rw [if_pos hempty]

/-- A URL-set document with zero entries. -/
def emptyDoc : URLSet := { XMLNS := sitemapNS, XHTML := xhtmlNS, URLs := [] }

theorem split_empty_document_witness :
    splitGo "sitemap.xml" 10 (some (xmlHeader ++ marshalURLSet emptyDoc))
      "2024-01-15T10:00:00Z" (fun _ => true)
      = { writes := [], error := some .emptyDocument } :=
  split_empty_document "sitemap.xml" 10 (xmlHeader ++ marshalURLSet emptyDoc)
    "2024-01-15T10:00:00Z" (fun _ => true) _ (marshal_unmarshal emptyDoc) rfl

/-- C4: `NewSitemapSplitter` fails (with the invalid-configuration errors of
lines 52-57) exactly when the path is empty or the limit is not positive; on
success it returns the configuration holding exactly the given path and
limit.  The validation is a pure computation: no file is touched. -/
theorem newSitemapSplitter_spec (path : String) (limit : Int) :
    ((∃ e, NewSitemapSplitter path limit = .error e) ↔ (path = "" ∨ limit ≤ 0)) ∧
    (∀ s, NewSitemapSplitter path limit = .ok s → s.path = path ∧ s.limit = limit) := by
  unfold NewSitemapSplitter
  by_cases hp : path = ""
  · rw [if_pos hp]
    constructor
    · constructor
      · intro _
        exact Or.inl hp
      · intro _
        exact ⟨_, rfl⟩
    · intro s hs
      cases hs
  · rw [if_neg hp]
    by_cases hl : limit ≤ 0
    · rw [if_pos hl]
      constructor
      · constructor
        · intro _
          exact Or.inr hl
        · intro _
          exact ⟨_, rfl⟩
      · intro s hs
        cases hs
    · rw [if_neg hl]
      constructor
      · constructor
        · intro ⟨e, he⟩
          cases he
        · intro hor
          rcases hor with h | h
          · exact absurd h hp
          · exact absurd h hl
      · intro s hs
        cases hs
        exact ⟨rfl, rfl⟩

theorem newSitemapSplitter_spec_witness :
    (∃ e, NewSitemapSplitter "" 0 = .error e) ∧
    ({ path := "./example/sitemap.xml", limit := 10 } : SitemapSplitter).path
        = "./example/sitemap.xml" ∧
    ({ path := "./example/sitemap.xml", limit := 10 } : SitemapSplitter).limit = 10 :=
  ⟨(newSitemapSplitter_spec "" 0).1.mpr (Or.inl rfl),
   (newSitemapSplitter_spec "./example/sitemap.xml" 10).2
     { path := "./example/sitemap.xml", limit := 10 } rfl⟩

/-- Suffix decomposition produced by the `filepath.Ext` scan. -/
theorem extAux_suffix : ∀ (rev acc : List Char),
    extAux rev acc = [] ∨ ∃ pre, pre ++ extAux rev acc = rev.reverse ++ acc := by
  intro rev
  induction rev with
  | nil =>
    intro acc
    exact Or.inl rfl
  | cons c cs ih =>
    intro acc
    rw [extAux]
    by_cases hs : c = '/'
    · rw [if_pos hs]
      exact Or.inl rfl
    · rw [if_neg hs]
      by_cases hd : c = '.'
      · rw [if_pos hd]
        refine Or.inr ⟨cs.reverse, ?_⟩
        simp
      · rw [if_neg hd]
        rcases ih (c :: acc) with h | ⟨pre, hpre⟩
        · rw [h]
          exact Or.inl rfl
        · refine Or.inr ⟨pre, ?_⟩
          rw [hpre]
          simp

/-- If the final path element contains no dot the scan returns nothing. -/
theorem extAux_no_dot : ∀ (rev acc : List Char), (∀ c ∈ rev, c ≠ '.') →
    extAux rev acc = [] := by
  intro rev
  induction rev with
  | nil =>
    intro acc _
    rfl
  | cons c cs ih =>
    intro acc hnd
    rw [extAux]
    by_cases hs : c = '/'
    · rw [if_pos hs]
    · rw [if_neg hs]
      rw [if_neg (hnd c (by simp))]
      exact ih (c :: acc) (fun c2 hc2 => hnd c2 (by simp [hc2]))

/-- C10: the base-filename computation is always in bounds: the extension
`filepath.Ext` returns is a suffix of the base filename, so the slice
`filename[:len(filename)-len(ext)]` is well defined; a filename with no dot
is kept whole; a filename that is nothing but an extension yields the empty
base filename. -/
theorem baseFilename_safe (path : String) (hp : path ≠ "") :
    (filepathExt (filepathBase path)).data.length ≤ (filepathBase path).data.length ∧
    (baseFilenameOf path).data ++ (filepathExt (filepathBase path)).data
      = (filepathBase path).data ∧
    ((∀ c ∈ (filepathBase path).data, c ≠ '.') → baseFilenameOf path = filepathBase path) ∧
    (filepathExt (filepathBase path) = filepathBase path → baseFilenameOf path = "") := by
  have hsuf : ∃ pre, pre ++ (filepathExt (filepathBase path)).data
      = (filepathBase path).data := by
    rcases extAux_suffix (filepathBase path).data.reverse [] with h | ⟨pre, hpre⟩
    · refine ⟨(filepathBase path).data, ?_⟩
      unfold filepathExt
      rw [h]
      simp [asString_data]
    · refine ⟨pre, ?_⟩
      unfold filepathExt
      rw [asString_data, hpre]
      simp
  obtain ⟨pre, hpre⟩ := hsuf
  have hlen : pre.length + (filepathExt (filepathBase path)).data.length
      = (filepathBase path).data.length := by
    have := congrArg List.length hpre
    simpa using this
  have hbase : (baseFilenameOf path).data = pre := by
    unfold baseFilenameOf
    rw [asString_data, ← hpre]
    have hl2 : (pre ++ (filepathExt (filepathBase path)).data).length
        - (filepathExt (filepathBase path)).data.length = pre.length := by
      simp
    rw [hl2, List.take_left]
  refine ⟨by omega, ?_, ?_, ?_⟩
  · rw [hbase, hpre]
  · intro hnd
    have hext : (filepathExt (filepathBase path)).data = [] := by
      unfold filepathExt
      rw [asString_data]
      exact extAux_no_dot _ _ (fun c hc => hnd c (by simpa using hc))
    apply string_eq_of_data
    rw [hbase, ← hpre, hext]
    simp
  · intro hex
    have hpl : pre.length = 0 := by
      rw [hex] at hlen
      omega
    apply string_eq_of_data
    rw [hbase, List.eq_nil_of_length_eq_zero hpl]

theorem baseFilename_safe_witness :
    (baseFilenameOf "/tmp/sitemap.xml").data
        ++ (filepathExt (filepathBase "/tmp/sitemap.xml")).data
      = (filepathBase "/tmp/sitemap.xml").data ∧
    baseFilenameOf "/tmp/.xml" = "" :=
  ⟨(baseFilename_safe "/tmp/sitemap.xml" (by decide)).2.1,
   (baseFilename_safe "/tmp/.xml" (by decide)).2.2.2 rfl⟩

/-- A URL-set document whose only entry has the location `not a url`. -/
def notAUrlSet : URLSet :=
  { XMLNS := sitemapNS, XHTML := xhtmlNS,
    URLs := [{ Loc := "not a url", LastMod := "", ChangeFreq := "",
               Priority := "" }] }

set_option maxRecDepth 100000 in
unseal splitChunksAux chunkExact unescapeGo in
/-- C2 counterexample: with the input whose single chunk ends in the location
`not a url` and all writes succeeding, `Split` does NOT fail: Go's
`url.Parse` accepts `not a url` as a URL with empty scheme and host, so the
run completes with no error (and a base URL of `:///`). -/
theorem split_not_a_url_counterexample :
    (splitGo "sitemap.xml" 1 (some (xmlHeader ++ marshalURLSet notAUrlSet))
        "2024-01-15T10:00:00Z" (fun _ => true)).error = none ∧
    urlParse "not a url"
      = .ok { Scheme := "", Opaque := "", Host := "", Path := "not a url",
              RawQuery := "", Fragment := "" } := by
  constructor
  · refine splitGo_success_error "sitemap.xml" 1 _ "2024-01-15T10:00:00Z"
      notAUrlSet ?_ (by decide) ?_
    · rw [marshal_unmarshal]
      exact congrArg Except.ok (by decide)
    · rw [splitLoop_eq_loopOn]
      exact loopOn_error_none_of (filepathDir "sitemap.xml")
        (baseFilenameOf "sitemap.xml") "2024-01-15T10:00:00Z"
        (splitChunksAux notAUrlSet.URLs 1 0) 0 (by decide)
  · rfl

/-- C2 (amended): with all writes succeeding, when chunk `k` (0-indexed) is
the first whose last entry's `location` is rejected by `url.Parse` (for
example a location containing a control character), `Split` fails with
`URLParseError` and its write trace is exactly the chunk files of chunks
`0..k-1` — in particular no index file is written.  The string `not a url`,
however, is accepted by `url.Parse`, so it does not trigger this error. -/
theorem split_urlParseError_spec (path : String) (limit : Nat) (content now : String)
    (urlset : URLSet) (hl : 0 < limit)
    (hparse : unmarshalURLSet content = .ok urlset)
    (k : Nat) (e : String)
    (hk : k < (splitChunks urlset.URLs limit).length)
    (hbad : urlParse (lastOf ((splitChunks urlset.URLs limit).getD k [])).Loc
        = .error e)
    (hgood : ∀ j, j < k →
        (urlParse (lastOf ((splitChunks urlset.URLs limit).getD j [])).Loc).isOk
          = true) :
    splitGo path limit (some content) now (fun _ => true)
      = { writes := (List.range k).map (fun j =>
            (filepathJoin (filepathDir path) (sitemapName (baseFilenameOf path) j),
             chunkBytes ((splitChunks urlset.URLs limit).getD j [])))
          error := some (.urlParseError e) } := by
  have heq : splitChunks urlset.URLs limit = chunkExact limit urlset.URLs :=
    splitChunks_eq_chunkExact urlset.URLs limit hl
  have hne : urlset.URLs ≠ [] := by
    intro hz
    rw [heq, hz, chunkExact] at hk
    exact absurd hk (by simp)
  rw [splitGo_parsed path limit content now _ urlset hparse hne]
  rw [splitLoop_eq_loopOn]
  have hall : ∀ c ∈ splitChunksAux urlset.URLs limit 0, c ≠ [] := by
    intro c hcmem
    have hmem2 : c ∈ chunkExact limit urlset.URLs := by
      rw [← heq]
      unfold splitChunks
      exact hcmem
    exact (chunkExact_mem limit hl urlset.URLs c hmem2).1
  obtain ⟨hw, he⟩ := loopOn_first_error (filepathDir path) (baseFilenameOf path) now
    (splitChunksAux urlset.URLs limit 0) 0 k e hall hk hbad hgood
  rw [he]
  dsimp only []
  rw [hw]
  simp only [Nat.zero_add]
  rfl

/-- A URL-set document whose only entry's location is a single TAB
character: a control byte `url.Parse` rejects, yet an XML-representable
character that survives serialization. -/
def ctlSet : URLSet :=
  { XMLNS := sitemapNS, XHTML := xhtmlNS,
    URLs := [{ Loc := String.mk [Char.ofNat 9], LastMod := "", ChangeFreq := "",
               Priority := "" }] }

set_option maxRecDepth 100000 in
unseal splitChunksAux chunkExact unescapeGo in
theorem split_urlParseError_spec_witness :
    splitGo "sitemap.xml" 1 (some (xmlHeader ++ marshalURLSet ctlSet))
      "2024-01-15T10:00:00Z" (fun _ => true)
      = { writes := [],
          error := some (.urlParseError
            "net/url: invalid control character in URL") } :=
  split_urlParseError_spec "sitemap.xml" 1 (xmlHeader ++ marshalURLSet ctlSet)
    "2024-01-15T10:00:00Z" ctlSet (by decide)
    (by rw [marshal_unmarshal]
        exact congrArg Except.ok (by decide))
    0 "net/url: invalid control character in URL"
    (by decide) rfl
    (fun j hj => absurd hj (Nat.not_lt_zero j))

/-- C5: for the chunk at 0-indexed position `i` the derived metadata is:
output name `<baseFilename>-<i+1>.xml`; base URL `<scheme>://<host>/` from
the parsed location of the chunk's last entry; and last-modified equal to
the last entry's `lastmod` when non-empty, otherwise the formatted current
time `now`. -/
theorem split_metadata_spec (urls : List URL) (limit : Nat) (dir b now : String)
    (w : String → Bool) (hl : 0 < limit)
    (hsucc : (splitLoop urls limit dir b now w 0).error = none) :
    ∀ i, i < (splitChunks urls limit).length →
      ∃ c, (splitChunks urls limit)[i]? = some c ∧ c ≠ [] ∧
        ∃ g, urlParse (lastOf c).Loc = .ok g ∧
          (splitLoop urls limit dir b now w 0).files[i]? = some
            { BaseURL := g.Scheme ++ "://" ++ g.Host ++ "/"
              Name := b ++ "-" ++ toString (i + 1) ++ ".xml"
              LastModDate := if (lastOf c).LastMod = "" then now
                             else (lastOf c).LastMod } := by
  intro i hi
  rw [splitLoop_eq_loopOn] at hsucc ⊢
  unfold splitChunks at hi ⊢
  have hall : ∀ c ∈ splitChunksAux urls limit 0, c ≠ [] := by
    intro c hcmem
    rw [splitChunksAux_eq_chunkExact urls limit hl 0] at hcmem
    exact (chunkExact_mem limit hl urls c (by simpa using hcmem)).1
  obtain ⟨_, _, h3⟩ := loopOn_success dir b now w (splitChunksAux urls limit 0) 0 hall hsucc
  obtain ⟨c, hc1, hc2, g, hg, hfile, _⟩ := h3 i hi
  refine ⟨c, hc1, hc2, g, hg, ?_⟩
  rw [hfile]
  simp [sitemapName, baseURLOf, deriveLastMod]

set_option maxRecDepth 100000 in
unseal splitChunksAux chunkExact unescapeGo in
theorem split_metadata_spec_witness :
    ∃ c, (splitChunks (demoURLs 3) 2)[0]? = some c ∧ c ≠ [] ∧
      ∃ g, urlParse (lastOf c).Loc = .ok g ∧
        (splitLoop (demoURLs 3) 2 "." "sitemap" "2024-01-15T10:00:00Z"
            (fun _ => true) 0).files[0]? = some
          { BaseURL := g.Scheme ++ "://" ++ g.Host ++ "/"
            Name := "sitemap" ++ "-" ++ toString (0 + 1) ++ ".xml"
            LastModDate := if (lastOf c).LastMod = "" then "2024-01-15T10:00:00Z"
                           else (lastOf c).LastMod } :=
  split_metadata_spec (demoURLs 3) 2 "." "sitemap" "2024-01-15T10:00:00Z"
    (fun _ => true) (by decide)
    (by rw [splitLoop_eq_loopOn]
        exact loopOn_error_none_of "." "sitemap" "2024-01-15T10:00:00Z"
          (splitChunksAux (demoURLs 3) 2 0) 0 (by decide))
    0 (by decide)

/-- C6: on a successful `Split` the emitted sitemap-index contains exactly
`ceil(N/L)` references, in chunk order: reference `i` has location
`BaseURL ++ Name` and last-modified `LastModDate` of the `i`-th derived
chunk record; and the final write of the run is the serialized index at
`sitemap-index.xml`. -/
theorem split_index_spec (path : String) (limit : Nat) (content now : String)
    (w : String → Bool) (urlset : URLSet) (hl : 0 < limit)
    (hparse : unmarshalURLSet content = .ok urlset)
    (hsucc : (splitGo path limit (some content) now w).error = none) :
    (buildIndex (splitLoop urlset.URLs limit (filepathDir path) (baseFilenameOf path)
        now w 0).files).Sitemaps
      = (splitLoop urlset.URLs limit (filepathDir path) (baseFilenameOf path)
          now w 0).files.map
          (fun f => { Loc := f.BaseURL ++ f.Name, LastMod := f.LastModDate }) ∧
    (splitLoop urlset.URLs limit (filepathDir path) (baseFilenameOf path)
        now w 0).files.length = (urlset.URLs.length + limit - 1) / limit ∧
    (splitGo path limit (some content) now w).writes.getLast?
      = some (filepathJoin (filepathDir path) "sitemap-index.xml",
          xmlHeader ++ marshalSitemapIndex (buildIndex
            (splitLoop urlset.URLs limit (filepathDir path) (baseFilenameOf path)
              now w 0).files)) := by
  have hne : urlset.URLs ≠ [] := by
    intro hz
    unfold splitGo at hsucc
    dsimp only [] at hsucc
    rw [hparse] at hsucc
    dsimp only [] at hsucc
    rw [if_pos hz] at hsucc
    exact absurd hsucc (by simp)
  have hgo := splitGo_parsed path limit content now w urlset hparse hne
  rw [hgo] at hsucc
  cases herr : (splitLoop urlset.URLs limit (filepathDir path) (baseFilenameOf path)
      now w 0).error with
  | some e =>
    rw [herr] at hsucc
    exact absurd hsucc (by simp)
  | none =>
    rw [herr] at hsucc
    dsimp only [] at hsucc
    by_cases hw : w (filepathJoin (filepathDir path) "sitemap-index.xml") = true
    · refine ⟨rfl, ?_, ?_⟩
      · rw [splitLoop_eq_loopOn] at herr ⊢
        have hall : ∀ c ∈ splitChunksAux urlset.URLs limit 0, c ≠ [] := by
          intro c hcmem
          rw [splitChunksAux_eq_chunkExact urlset.URLs limit hl 0] at hcmem
          exact (chunkExact_mem limit hl urlset.URLs c (by simpa using hcmem)).1
        have hf := (loopOn_success (filepathDir path) (baseFilenameOf path) now w
          (splitChunksAux urlset.URLs limit 0) 0 hall herr).1
        rw [hf]
        rw [splitChunksAux_eq_chunkExact urlset.URLs limit hl 0]
        simpa using chunkExact_length limit hl urlset.URLs
      · rw [hgo, herr]
        dsimp only []
        rw [if_pos hw]
        dsimp only []
        rw [List.getLast?_concat]
    · rw [if_neg hw] at hsucc
      exact absurd hsucc (by simp)

set_option maxRecDepth 100000 in
unseal splitChunksAux chunkExact unescapeGo in
theorem split_index_spec_witness :
    (splitLoop (demoURLs 5) 2 (filepathDir "sitemap.xml") (baseFilenameOf "sitemap.xml")
        "2024-01-15T10:00:00Z" (fun _ => true) 0).files.length
      = ((demoURLs 5).length + 2 - 1) / 2 ∧
    (buildIndex (splitLoop (demoURLs 5) 2 (filepathDir "sitemap.xml")
        (baseFilenameOf "sitemap.xml") "2024-01-15T10:00:00Z"
        (fun _ => true) 0).files).Sitemaps
      = (splitLoop (demoURLs 5) 2 (filepathDir "sitemap.xml")
          (baseFilenameOf "sitemap.xml") "2024-01-15T10:00:00Z"
          (fun _ => true) 0).files.map
          (fun f => { Loc := f.BaseURL ++ f.Name, LastMod := f.LastModDate }) :=
  (fun h => ⟨h.2.1, h.1⟩)
    (split_index_spec "sitemap.xml" 2 (xmlHeader ++ marshalURLSet
      { XMLNS := sitemapNS, XHTML := xhtmlNS, URLs := demoURLs 5 })
      "2024-01-15T10:00:00Z" (fun _ => true)
      { XMLNS := sitemapNS, XHTML := xhtmlNS, URLs := demoURLs 5 }
      (by decide)
      (by rw [marshal_unmarshal]
          exact congrArg Except.ok (by decide))
      (splitGo_success_error "sitemap.xml" 2 _ "2024-01-15T10:00:00Z"
        { XMLNS := sitemapNS, XHTML := xhtmlNS, URLs := demoURLs 5 }
        (by rw [marshal_unmarshal]
            exact congrArg Except.ok (by decide))
        (by decide)
        (by rw [splitLoop_eq_loopOn]
            exact loopOn_error_none_of (filepathDir "sitemap.xml")
              (baseFilenameOf "sitemap.xml") "2024-01-15T10:00:00Z"
              (splitChunksAux (demoURLs 5) 2 0) 0 (by decide))))

theorem buildIndex_locs (fs1 fs2 : List SitemapFileInfo)
    (h : fs1.map (fun f => (f.BaseURL, f.Name)) = fs2.map (fun f => (f.BaseURL, f.Name))) :
    (buildIndex fs1).Sitemaps.map Sitemap.Loc
      = (buildIndex fs2).Sitemaps.map Sitemap.Loc := by
  have h1 : ∀ (fs : List SitemapFileInfo),
      (buildIndex fs).Sitemaps.map Sitemap.Loc
        = (fs.map (fun f => (f.BaseURL, f.Name))).map (fun p => p.1 ++ p.2) := by
    intro fs
    unfold buildIndex
    dsimp only []
    rw [List.map_map, List.map_map]
    rfl
  rw [h1, h1, h]

/-- C8: `Split` is deterministic up to the clock fallback: two runs on
byte-identical input with the same limit have the same error, byte-identical
chunk-file writes, and index references with identical locations; when every
chunk's last entry carries a non-empty `lastmod`, the full results coincide
byte for byte. -/
theorem split_deterministic_up_to_clock (path : String) (limit : Nat)
    (content now1 now2 : String) (w : String → Bool) (urlset : URLSet)
    (hparse : unmarshalURLSet content = .ok urlset) :
    ((splitGo path limit (some content) now1 w).error
      = (splitGo path limit (some content) now2 w).error) ∧
    ((splitLoop urlset.URLs limit (filepathDir path) (baseFilenameOf path)
        now1 w 0).writes
      = (splitLoop urlset.URLs limit (filepathDir path) (baseFilenameOf path)
          now2 w 0).writes) ∧
    ((buildIndex (splitLoop urlset.URLs limit (filepathDir path) (baseFilenameOf path)
        now1 w 0).files).Sitemaps.map Sitemap.Loc
      = (buildIndex (splitLoop urlset.URLs limit (filepathDir path) (baseFilenameOf path)
          now2 w 0).files).Sitemaps.map Sitemap.Loc) ∧
    ((∀ c ∈ splitChunks urlset.URLs limit, c ≠ [] → (lastOf c).LastMod ≠ "") →
      splitGo path limit (some content) now1 w
        = splitGo path limit (some content) now2 w) := by
  have hinv := loopOn_now_invariant (filepathDir path) (baseFilenameOf path) w now1 now2
    (splitChunksAux urlset.URLs limit 0) 0
  have hw1 : (splitLoop urlset.URLs limit (filepathDir path) (baseFilenameOf path)
      now1 w 0).writes
      = (splitLoop urlset.URLs limit (filepathDir path) (baseFilenameOf path)
        now2 w 0).writes := by
    rw [splitLoop_eq_loopOn, splitLoop_eq_loopOn]
    exact hinv.1
  have herr : (splitLoop urlset.URLs limit (filepathDir path) (baseFilenameOf path)
      now1 w 0).error
      = (splitLoop urlset.URLs limit (filepathDir path) (baseFilenameOf path)
        now2 w 0).error := by
    rw [splitLoop_eq_loopOn, splitLoop_eq_loopOn]
    exact hinv.2.1
  have hloc : (buildIndex (splitLoop urlset.URLs limit (filepathDir path)
        (baseFilenameOf path) now1 w 0).files).Sitemaps.map Sitemap.Loc
      = (buildIndex (splitLoop urlset.URLs limit (filepathDir path)
          (baseFilenameOf path) now2 w 0).files).Sitemaps.map Sitemap.Loc := by
    apply buildIndex_locs
    rw [splitLoop_eq_loopOn, splitLoop_eq_loopOn]
    exact hinv.2.2
  refine ⟨?_, hw1, hloc, ?_⟩
  · by_cases hz : urlset.URLs = []
    · unfold splitGo
      dsimp only []
      rw [hparse]
      dsimp only []
      simp only [if_pos hz]
    · rw [splitGo_parsed path limit content now1 w urlset hparse hz,
        splitGo_parsed path limit content now2 w urlset hparse hz]
      rw [← herr]
      cases he : (splitLoop urlset.URLs limit (filepathDir path) (baseFilenameOf path)
          now1 w 0).error with
      | some e => rfl
      | none =>
        dsimp only []
        by_cases hiw : w (filepathJoin (filepathDir path) "sitemap-index.xml") = true
        · rw [if_pos hiw, if_pos hiw]
        · rw [if_neg hiw, if_neg hiw]
  · intro hlm
    by_cases hz : urlset.URLs = []
    · unfold splitGo
      dsimp only []
      rw [hparse]
      dsimp only []
      simp only [if_pos hz]
    · have hfull : splitLoop urlset.URLs limit (filepathDir path) (baseFilenameOf path)
          now1 w 0
          = splitLoop urlset.URLs limit (filepathDir path) (baseFilenameOf path)
            now2 w 0 := by
        rw [splitLoop_eq_loopOn, splitLoop_eq_loopOn]
        exact loopOn_now_full (filepathDir path) (baseFilenameOf path) w now1 now2
          (splitChunksAux urlset.URLs limit 0) 0
          (fun c hc => hlm c (by unfold splitChunks; exact hc))
      rw [splitGo_parsed path limit content now1 w urlset hparse hz,
        splitGo_parsed path limit content now2 w urlset hparse hz, hfull]

set_option maxRecDepth 100000 in
unseal splitChunksAux chunkExact in
theorem split_deterministic_up_to_clock_witness :
    splitGo "sitemap.xml" 2 (some (xmlHeader ++ marshalURLSet
        { XMLNS := sitemapNS, XHTML := xhtmlNS, URLs := demoURLs 3 }))
      "2024-01-15T10:00:00Z" (fun _ => true)
      = splitGo "sitemap.xml" 2 (some (xmlHeader ++ marshalURLSet
          { XMLNS := sitemapNS, XHTML := xhtmlNS, URLs := demoURLs 3 }))
        "2025-06-30T00:00:00Z" (fun _ => true) :=
  (split_deterministic_up_to_clock "sitemap.xml" 2
    (xmlHeader ++ marshalURLSet { XMLNS := sitemapNS, XHTML := xhtmlNS, URLs := demoURLs 3 })
    "2024-01-15T10:00:00Z" "2025-06-30T00:00:00Z" (fun _ => true)
    { XMLNS := sitemapNS, XHTML := xhtmlNS, URLs := demoURLs 3 }
    (by rw [marshal_unmarshal]
        exact congrArg Except.ok (by decide))).2.2.2
    (by decide)

/-- C9: no rollback on failure: whatever steps fail, the writes a run
performs are an initial segment of the all-success run's writes — the model's
only effect is the ordered write trace, the trace stops at the first failing
step, and nothing written before the failure is deleted or rewritten
afterwards. -/
theorem split_no_rollback (path : String) (limit : Nat) (content : Option String)
    (now : String) (writeOk : String → Bool) :
    ∃ t, (splitGo path limit content now (fun _ => true)).writes
        = (splitGo path limit content now writeOk).writes ++ t := by
  match content with
  | none => exact ⟨[], rfl⟩
  | some data =>
    unfold splitGo
    dsimp only []
    cases hp : unmarshalURLSet data with
    | error e => exact ⟨[], rfl⟩
    | ok urlset =>
      dsimp only []
      by_cases hz : urlset.URLs = []
      · rw [if_pos hz, if_pos hz]
        exact ⟨[], rfl⟩
      · rw [if_neg hz, if_neg hz]
        rw [splitLoop_eq_loopOn, splitLoop_eq_loopOn]
        obtain ⟨t, ht⟩ := loopOn_writes_of_ideal (filepathDir path) (baseFilenameOf path)
          now writeOk (splitChunksAux urlset.URLs limit 0) 0
        cases he : (loopOn (filepathDir path) (baseFilenameOf path) now writeOk
            (splitChunksAux urlset.URLs limit 0) 0).error with
        | some e =>
          dsimp only []
          cases he2 : (loopOn (filepathDir path) (baseFilenameOf path) now (fun _ => true)
              (splitChunksAux urlset.URLs limit 0) 0).error with
          | some e2 =>
            exact ⟨t, by rw [ht]⟩
          | none =>
            rw [if_pos rfl]
            refine ⟨t ++ [(filepathJoin (filepathDir path) "sitemap-index.xml",
              xmlHeader ++ marshalSitemapIndex (buildIndex
                (loopOn (filepathDir path) (baseFilenameOf path) now (fun _ => true)
                  (splitChunksAux urlset.URLs limit 0) 0).files))], ?_⟩
            rw [ht]
            simp
        | none =>
          have hid := loopOn_error_none_eq_ideal (filepathDir path) (baseFilenameOf path)
            now writeOk (splitChunksAux urlset.URLs limit 0) 0 he
          rw [hid]
          cases he2 : (loopOn (filepathDir path) (baseFilenameOf path) now (fun _ => true)
              (splitChunksAux urlset.URLs limit 0) 0).error with
          | some e2 =>
            rw [← hid] at he2
            rw [he] at he2
            cases he2
          | none =>
            dsimp only []
            rw [if_pos rfl]
            by_cases hiw : writeOk (filepathJoin (filepathDir path)
                "sitemap-index.xml") = true
            · rw [if_pos hiw]
              exact ⟨[], by simp⟩
            · rw [if_neg hiw]
              exact ⟨[(filepathJoin (filepathDir path) "sitemap-index.xml",
                xmlHeader ++ marshalSitemapIndex (buildIndex
                  (loopOn (filepathDir path) (baseFilenameOf path) now (fun _ => true)
                    (splitChunksAux urlset.URLs limit 0) 0).files))], rfl⟩

end SitemapSplitterModel
